import Mathlib

/-!
Verification of the blockchain-indexing ingestion core.

This file shallowly embeds the parts of the TypeScript source that the
specification's claims are about:

* `evm-constants.ts` (`formatTokenAmount`, `isLargeTransfer`) and the
  private copies in `EvmBlockScanListener` / `ERC20TransferHandler`.
  These convert `BigInt` values to JS `number` (IEEE-754 binary64), so
  the embedding contains an exact model of binary64 rounding
  (round-to-nearest, ties-to-even, 53-bit significand) over exact
  rationals.  Only non-negative values are modelled: the source applies
  these helpers to uint256 token amounts.
* `EventDispatcherService` as a small-step machine whose atomic steps
  are the code segments between `await` suspension points (JavaScript
  is single-threaded run-to-completion, so this is exact).
* `ERC20TransferHandler.canHandle` / `saveEvent` /
  `updateContractMetadata`, `ContractDataService` block tracking, and
  the Mongo unique index of `blockchain-event.schema.ts` as a
  key-checking insert.
* `EvmBlockScanListener.scanForNewBlocks` / `processBlockRangeWithBatching` /
  `getAllContractEventsInRange` / `processContractEvent` as pure
  functions over an upstream-provider oracle.

Rationals are represented by unreduced numerator/denominator pairs
(`Frac`) because `Rat` arithmetic normalises through `Nat.gcd`, which
the kernel cannot evaluate; all model functions below are
kernel-computable, and `Frac.val : Frac → ℚ` gives their exact value
for the proofs.
-/

set_option maxRecDepth 16000

namespace JsNum

/-- Fuel used by the binary logarithm.  Every quantity this file feeds
to `natLog2F` is far below `2 ^ logFuel`. -/
def logFuel : ℕ := 4200

/-- Fuel-driven binary logarithm: `natLog2F fuel n = ⌊log₂ n⌋` whenever
`0 < n < 2 ^ fuel`.  Structural recursion on the fuel keeps it
kernel-computable (`Nat.log2` does not reduce in the kernel). -/
def natLog2F : ℕ → ℕ → ℕ
  | 0, _ => 0
  | fuel + 1, n => if 2 ≤ n then natLog2F fuel (n / 2) + 1 else 0

/-- Unreduced non-negative fraction.  All model values below keep
`0 < den`; arithmetic never normalises, so the kernel can evaluate it. -/
structure Frac where
  num : ℕ
  den : ℕ
  deriving DecidableEq, Repr

/-- Exact rational value of a fraction. -/
def Frac.val (x : Frac) : ℚ := (x.num : ℚ) / (x.den : ℚ)

/-- Round half to even of a non-negative fraction (the IEEE-754 tie
rule), computed with integer arithmetic only. -/
def rheN (x : Frac) : ℕ :=
  if 2 * (x.num % x.den) < x.den then x.num / x.den
  else if x.den < 2 * (x.num % x.den) then x.num / x.den + 1
  else if (x.num / x.den) % 2 = 0 then x.num / x.den else x.num / x.den + 1

/-- `⌊log₂⌋` of a positive fraction, as used to locate the binary64
exponent.  Correct for `num, den < 2 ^ logFuel` (see `qexpF_spec`). -/
def qexpF (x : Frac) : ℤ :=
  if x.den ≤ x.num then (natLog2F logFuel (x.num / x.den) : ℤ)
  else
    if x.num * 2 ^ natLog2F logFuel (x.den / x.num) = x.den
    then -(natLog2F logFuel (x.den / x.num) : ℤ)
    else -(natLog2F logFuel (x.den / x.num) : ℤ) - 1

/-- Binary64 round-to-nearest (ties to even) of a non-negative exact
fraction, returned as an exact fraction.  The significand grid has 53
bits; overflow and subnormals are outside every range this file uses
and are not modelled. -/
def roundF (x : Frac) : Frac :=
  if x.num = 0 then ⟨0, 1⟩
  else
    if qexpF x - 52 ≤ 0 then
      ⟨rheN ⟨x.num * 2 ^ (52 - qexpF x).toNat, x.den⟩, 2 ^ (52 - qexpF x).toNat⟩
    else
      ⟨rheN ⟨x.num, x.den * 2 ^ (qexpF x - 52).toNat⟩ * 2 ^ (qexpF x - 52).toNat, 1⟩

end JsNum

namespace EvmConstants

open JsNum

/-- `Number(b)` for a non-negative JS bigint `b`. -/
def jsNumber (n : ℕ) : Frac := roundF ⟨n, 1⟩

/-- Binary64 division: round the exact quotient. -/
def fdivF (a b : Frac) : Frac := roundF ⟨a.num * b.den, a.den * b.num⟩

/-- Model of `BigInt(10 ** decimals)` (`evm-constants.ts` lines 212 and
234): `10 ** decimals` is computed in binary64 — exact only for
`decimals ≤ 22` — and every finite power is an integral double, so
`BigInt` succeeds up to `1e308`; from `309` on the power overflows to
`Infinity` and `BigInt` throws. -/
def jsPow10BigInt (d : ℕ) : Option ℕ :=
  if d ≤ 308 then some ((roundF ⟨10 ^ d, 1⟩).num / (roundF ⟨10 ^ d, 1⟩).den)
  else none

/-- `isLargeTransfer(amount, decimals, isStablecoin)` from
`evm-constants.ts` lines 227-246 (the identical private copies live in
`EvmBlockScanListener.isLargeTransfer` and the first
`ERC20TransferHandler.isLargeTransfer`): convert the bigint amount and
the bigint divisor to binary64, divide, and compare against `100_000`
(stablecoins) or `1_000_000` (otherwise).  A throwing
`BigInt(10 ** decimals)` is caught and yields `false`. -/
def isLargeTransfer (value : ℕ) (decimals : ℕ) (isStablecoin : Bool) : Bool :=
  match jsPow10BigInt decimals with
  | none => false
  | some divisor =>
      let tokenAmount := fdivF (jsNumber value) (jsNumber divisor)
      if isStablecoin then decide (100000 * tokenAmount.den ≤ tokenAmount.num)
      else decide (1000000 * tokenAmount.den ≤ tokenAmount.num)

end EvmConstants

namespace EvmConstants

open JsNum

/-- Round half away from zero of a non-negative fraction — the
`Intl.NumberFormat` default rounding (`halfExpand`) used by
`toLocaleString` when truncating to `maximumFractionDigits`. -/
def rhuN (x : Frac) : ℕ :=
  if 2 * (x.num % x.den) < x.den then x.num / x.den else x.num / x.den + 1

/-- The numeric value rendered by `formatTokenAmount`
(`evm-constants.ts` 205-222; the same formula is inlined as
`formatTokenValue` in `ERC20TransferHandler` and
`EvmBlockScanListener`): bigint arithmetic
`(value * 1000000n) / divisor`, conversion to binary64, float division
by `1000000`, then `toLocaleString('en-US', {maximumFractionDigits: 6})`
which rounds half away from zero at the sixth fractional digit.  The
result is the exact rational value of the rendered digit string;
`none` marks the `catch` path (the input string is returned verbatim
there, see `formatTokenAmount` below). -/
def formatTokenAmountVal (value : ℕ) (decimals : ℕ) : Option Frac :=
  match jsPow10BigInt decimals with
  | none => none
  | some divisor =>
      if divisor = 0 then none
      else
        let n : ℕ := (value * 1000000) / divisor
        let x := fdivF (jsNumber n) (jsNumber 1000000)
        some ⟨rhuN ⟨x.num * 1000000, x.den⟩, 1000000⟩

end EvmConstants

namespace EvmConstants

open JsNum

/-- Fuel-based list chunking (`chunks` in `EvmBlockScanListener`, lines
110-116, and digit grouping below): split into runs of `k` from the
front. -/
def listChunksAux {α : Type} : ℕ → ℕ → List α → List (List α)
  | 0, _, _ => []
  | _, _, [] => []
  | fuel + 1, k, l => l.take k :: listChunksAux fuel k (l.drop k)

def listChunks {α : Type} (k : ℕ) (l : List α) : List (List α) :=
  listChunksAux l.length k l

/-- `en-US` thousands grouping of an integer-part digit string. -/
def groupThousands (ds : List Char) : List Char :=
  List.intercalate [','] (((listChunks 3 ds.reverse).map List.reverse).reverse)

/-- Fraction digits of `toLocaleString('en-US', {minimumFractionDigits: 2,
maximumFractionDigits: 6})`: six digits, trailing zeros trimmed but at
least two kept. -/
def fracChars (frac6 : ℕ) : List Char :=
  let ds := Nat.toDigits 10 frac6
  let padded := List.replicate (6 - ds.length) '0' ++ ds
  let tz := (padded.reverse.takeWhile (fun c => c = '0')).length
  padded.take (max 2 (6 - tz))

/-- Rendering of the non-negative value `scaled / 10 ^ 6` with locale
`en-US`, 2 to 6 fraction digits. -/
def renderEnUS (scaled : ℕ) : List Char :=
  groupThousands (Nat.toDigits 10 (scaled / 1000000))
    ++ '.' :: fracChars (scaled % 1000000)

def digitsToNat (l : List Char) : ℕ :=
  l.foldl (fun acc c => 10 * acc + (c.toNat - 48)) 0

/-- Model of JS `BigInt(string)`: whitespace-trimmed, empty means `0`,
optional sign followed by decimal digits; anything else throws (the
`0x`/`0o`/`0b` literal forms are omitted — they never reach this code,
which formats decimal `bigint.toString()` values). -/
def jsBigIntOfString (s : String) : Option ℤ :=
  match (s.data.dropWhile Char.isWhitespace).reverse.dropWhile Char.isWhitespace
      |>.reverse with
  | [] => some 0
  | '-' :: rest =>
      if rest ≠ [] ∧ rest.all Char.isDigit then some (-(digitsToNat rest : ℤ)) else none
  | '+' :: rest =>
      if rest ≠ [] ∧ rest.all Char.isDigit then some (digitsToNat rest : ℤ) else none
  | l => if l.all Char.isDigit then some (digitsToNat l : ℤ) else none

/-- Model of `10 ** decimals` followed by `BigInt(...)` for an integer
`decimals` of either sign: negative exponents yield a non-integral (or,
below `-323`, zero) double and `BigInt` (or the subsequent bigint
division by `0n`) throws, landing in the `catch`. -/
def jsPow10Z (d : ℤ) : Option ℕ :=
  if 0 ≤ d then jsPow10BigInt d.toNat else none

/-- `formatTokenAmount(amount, decimals)` from `evm-constants.ts` lines
205-222 for a string `amount` (the call sites pass
`value.toString()`): parse the bigint, scale by `10^6`, divide by the
binary64 divisor, and render with `toLocaleString('en-US')`; every
failure in the `try` block is caught and the input string is returned
unchanged (`amount.toString()` on a string is the string itself). -/
def formatTokenAmount (amount : String) (decimals : ℤ) : String :=
  match jsBigIntOfString amount with
  | none => amount
  | some v =>
      match jsPow10Z decimals with
      | none => amount
      | some divisor =>
          if divisor = 0 then amount
          else
            let n := v.natAbs * 1000000 / divisor
            let x := fdivF (jsNumber n) (jsNumber 1000000)
            let scaled := rhuN ⟨x.num * 1000000, x.den⟩
            String.mk ((if v < 0 then ['-'] else []) ++ renderEnUS scaled)

end EvmConstants

namespace Model

/-- Decoded event arguments as built by
`EvmBlockScanListener.formatEventArgs` (lines 554-582): `Transfer` and
`Approval` get typed records (values kept as decimal strings, as in the
source's `args[2].toString()`), anything else keeps the raw argument
list. -/
inductive EventArgs where
  | transferArgs (src dst value valueFormatted : String) (isLarge : Bool)
  | approvalArgs (owner spender value valueFormatted : String)
  | rawArgs (args : List String)
  deriving DecidableEq

/-- The `data` payload of a `BlockchainEvent`
(`blockchain.interface.ts` plus the fields `processContractEvent`
fills in, lines 473-502). -/
structure EventData where
  topics : List String
  dataHex : String
  logIndex : ℕ
  transactionIndex : ℕ
  gasUsed : ℕ
  status : ℕ
  contractName : String
  contractSymbol : String
  contractType : String
  eventName : String
  eventSignatureHash : String
  args : EventArgs
  deriving DecidableEq

/-- `BlockchainEvent` from `blockchain.interface.ts` lines 24-32
(`contractAddress` is a required but possibly empty string —
JS string truthiness distinguishes `""`). -/
structure BlockchainEvent where
  chainId : ℕ
  blockNumber : ℕ
  transactionHash : String
  eventType : String
  contractAddress : String
  data : EventData
  timestamp : ℕ
  deriving DecidableEq

/-- The canonical `Transfer(address,address,uint256)` topic-0 hash
(`ERC20TransferHandler.TRANSFER_EVENT_SIGNATURE`). -/
def TRANSFER_EVENT_SIGNATURE : String :=
  "0xddf252ad1be2c89b69c2b068fc378daa952ba7f163c4a11628f55a4df523b3ef"

/-- `ERC20TransferHandler.isTransferEvent` (lines 94-97): first topic
equals the canonical hash; `topics[0]` of an empty list is `undefined`
and compares unequal. -/
def isTransferEvent (ev : BlockchainEvent) : Bool :=
  ev.data.topics.head? = some TRANSFER_EVENT_SIGNATURE

/-- `ERC20TransferHandler.canHandle` (lines 85-92): `contract_log`
events with a truthy (non-empty) `contractAddress` whose first topic is
the `Transfer` hash.  (The second handler variant, lines 486-504,
computes the same hash through `ethers` instead of the constant.) -/
def canHandle (ev : BlockchainEvent) : Bool :=
  (ev.eventType == "contract_log") && (ev.contractAddress != "") && isTransferEvent ev

end Model

namespace Model

/-- An event that satisfies the claimed characterisation of `canHandle`
(`contract_log`, first topic is the `Transfer` hash) but has an empty
`contractAddress`, which `!!event.contractAddress` rejects. -/
def emptyAddressTransferEvent : BlockchainEvent where
  chainId := 1
  blockNumber := 95
  transactionHash := "0xtx1"
  eventType := "contract_log"
  contractAddress := ""
  data :=
    { topics := [TRANSFER_EVENT_SIGNATURE]
      dataHex := "0x"
      logIndex := 0
      transactionIndex := 0
      gasUsed := 21000
      status := 1
      contractName := "Tether USD"
      contractSymbol := "USDT"
      contractType := "erc20"
      eventName := "Transfer"
      eventSignatureHash := TRANSFER_EVENT_SIGNATURE
      args := .rawArgs [] }
  timestamp := 0

end Model

namespace Model

/-- Event-store errors: the Mongo duplicate-key error (`code 11000`)
raised by the unique index, and any other I/O failure. -/
inductive StoreErr where
  | duplicateKey
  | other (msg : String)
  deriving DecidableEq

/-- A persisted `BlockchainEvent` document
(`blockchain-event.schema.ts`), restricted to the fields the claims
touch; `logIndex`/`transactionIndex` are the top-level copies that
`saveEvent` adds (part of the unique index). -/
structure SavedEvent where
  chainId : ℕ
  blockNumber : ℕ
  transactionHash : String
  logIndex : ℕ
  transactionIndex : ℕ
  eventType : String
  contractAddress : String
  timestamp : ℕ
  transferType : String
  tokenName : String
  tokenSymbol : String
  deriving DecidableEq

/-- The unique-index key `(chainId, transactionHash, logIndex)`
(`blockchain-event.schema.ts` lines 57-64). -/
def eventKey (d : SavedEvent) : ℕ × String × ℕ :=
  (d.chainId, d.transactionHash, d.logIndex)

/-- The event store as the ordered list of inserted documents. -/
abbrev EventStore := List SavedEvent

def hasKey (store : EventStore) (k : ℕ × String × ℕ) : Bool :=
  store.any (fun d => eventKey d = k)

/-- `save()` against the unique index: inserting a document whose key
already exists fails with the duplicate-key error. -/
def insertEvent (store : EventStore) (doc : SavedEvent) : Except StoreErr EventStore :=
  if hasKey store (eventKey doc) then .error .duplicateKey
  else .ok (store ++ [doc])

/-- `ERC20TransferHandler.getTransferType` (lines 757-763). -/
def getTransferType (src dst : String) : String :=
  if src = "0x0000000000000000000000000000000000000000" then "mint"
  else if dst = "0x0000000000000000000000000000000000000000" then "burn"
  else "transfer"

/-- `ERC20TransferData` (the handler's enrichment record). -/
structure TransferData where
  src : String
  dst : String
  value : String
  valueFormatted : String
  isLargeTransfer : Bool
  name : String
  symbol : String
  decimals : ℕ
  isStablecoin : Bool
  priority : String
  deriving DecidableEq

/-- The enhanced document `saveEvent` persists (lines 713-735),
projected to the modelled fields. -/
def buildSavedEvent (ev : BlockchainEvent) (td : TransferData) : SavedEvent :=
  { chainId := ev.chainId
    blockNumber := ev.blockNumber
    transactionHash := ev.transactionHash
    logIndex := ev.data.logIndex
    transactionIndex := ev.data.transactionIndex
    eventType := ev.eventType
    contractAddress := ev.contractAddress
    timestamp := ev.timestamp
    transferType := getTransferType td.src td.dst
    tokenName := td.name
    tokenSymbol := td.symbol }

/-- `ERC20TransferHandler.saveEvent` (lines 694-755): `findOne` on the
`(transactionHash, logIndex, chainId)` key and skip when present;
otherwise insert; a duplicate-key failure (`error.code === 11000`) is
skipped silently; any other store failure is logged and swallowed.
`fault` injects the I/O outcome of the `save()` call (`none` = the
store behaves as the unique index dictates). -/
def saveEvent (store : EventStore) (ev : BlockchainEvent) (td : TransferData)
    (fault : Option StoreErr) : EventStore :=
  if hasKey store (ev.chainId, ev.transactionHash, ev.data.logIndex) then store
  else
    match (match fault with
            | some e => Except.error e
            | none => insertEvent store (buildSavedEvent ev td)) with
    | .ok s' => s'
    | .error .duplicateKey => store
    | .error (.other _) => store

end Model

namespace Model

/-- A concrete Transfer event (the spec's scenario 1) used to exercise
the persistence and metadata paths on explicit inputs. -/
def sampleTransferEvent : BlockchainEvent where
  chainId := 1
  blockNumber := 95
  transactionHash := "0xtx1"
  eventType := "contract_log"
  contractAddress := "0xaaa"
  data :=
    { topics := [TRANSFER_EVENT_SIGNATURE]
      dataHex := "0x"
      logIndex := 0
      transactionIndex := 0
      gasUsed := 21000
      status := 1
      contractName := "Tether USD"
      contractSymbol := "USDT"
      contractType := "erc20"
      eventName := "Transfer"
      eventSignatureHash := TRANSFER_EVENT_SIGNATURE
      args := .transferArgs "0x01" "0x02" "250000000000" "250,000.00" true }
  timestamp := 1700000000000

def sampleTransferData : TransferData where
  src := "0x01"
  dst := "0x02"
  value := "250000000000"
  valueFormatted := "250,000.00"
  isLargeTransfer := true
  name := "Tether USD"
  symbol := "USDT"
  decimals := 6
  isStablecoin := true
  priority := "high"

end Model

namespace Model

/-- `ContractData` (`contract-data.schema.ts`), restricted to the
fields the handler's metadata update touches; `Option` models fields a
document may lack (`undefined`). -/
structure ContractData where
  contractAddress : String
  chainId : ℕ
  contractType : String
  name : String
  symbol : String
  decimals : ℕ
  totalSupply : String
  firstSeenBlock : Option ℕ
  startFromBlock : Option ℕ
  lastProcessedBlock : Option ℕ
  transferCount : Option ℕ
  largeTransferCount : Option ℕ
  lastTransferTimestamp : Option ℕ
  metaLastBlock : Option ℕ
  metaIsStablecoin : Option Bool
  metaPriority : Option String
  deriving DecidableEq

/-- JS falsiness of an optional numeric field: `undefined` and `0` are
falsy. -/
def optFalsy (o : Option ℕ) : Bool :=
  match o with
  | none => true
  | some n => n = 0

/-- `ContractDataService.updateLastProcessedBlock` (lines 160-186) on
an existing record: update only when the field is unset (or `0`) or the
new block is strictly higher. -/
def updateLastProcessedBlock (cd : ContractData) (b : ℕ) : ContractData :=
  if optFalsy cd.lastProcessedBlock || decide (cd.lastProcessedBlock.getD 0 < b) then
    { cd with lastProcessedBlock := some b }
  else cd

/-- `ContractDataService.setFirstSeenBlock` (lines 188-214): set when
unset (or `0`) or when the new block is strictly earlier. -/
def setFirstSeenBlock (cd : ContractData) (b : ℕ) : ContractData :=
  if optFalsy cd.firstSeenBlock || decide (b < cd.firstSeenBlock.getD 0) then
    { cd with firstSeenBlock := some b }
  else cd

/-- `ERC20TransferHandler.updateContractMetadata` (lines 600-692): the
absent branch creates the record via `saveERC20Data` and then writes
`lastProcessedBlock` and the counters; the present branch calls
`updateLastProcessedBlock`, conditionally `setFirstSeenBlock`, then
bumps the counters read from the original record. -/
def updateContractMetadata (st : Option ContractData) (ev : BlockchainEvent)
    (td : TransferData) : ContractData :=
  match st with
  | none =>
      { contractAddress := ev.contractAddress
        chainId := ev.chainId
        contractType := "erc20"
        name := td.name
        symbol := td.symbol
        decimals := td.decimals
        totalSupply := "0"
        firstSeenBlock := some ev.blockNumber
        startFromBlock := some ev.blockNumber
        lastProcessedBlock := some ev.blockNumber
        transferCount := some 1
        largeTransferCount := some (if td.isLargeTransfer then 1 else 0)
        lastTransferTimestamp := some ev.timestamp
        metaLastBlock := some ev.blockNumber
        metaIsStablecoin := some td.isStablecoin
        metaPriority := some td.priority }
  | some cd =>
      let cd1 := updateLastProcessedBlock cd ev.blockNumber
      let cd2 := if optFalsy cd.firstSeenBlock then setFirstSeenBlock cd1 ev.blockNumber
        else cd1
      { cd2 with
        metaLastBlock := some ev.blockNumber
        transferCount := some (cd.transferCount.getD 0 + 1)
        largeTransferCount :=
          some (cd.largeTransferCount.getD 0 + (if td.isLargeTransfer then 1 else 0))
        lastTransferTimestamp := some ev.timestamp }

/-- The `lastProcessedBlock` reading used for monotonicity (`0` when
the record or the field is absent). -/
def lpbVal (st : Option ContractData) : ℕ :=
  match st with
  | none => 0
  | some cd => cd.lastProcessedBlock.getD 0

/-- One handler invocation as a state transition on the (optional)
`ContractData` record. -/
def handlerStep (st : Option ContractData) (p : BlockchainEvent × TransferData) :
    Option ContractData :=
  some (updateContractMetadata st p.1 p.2)

end Model

namespace Dispatcher

open Model

/-- A registered event handler (`IEventHandler`): an eligibility
predicate and a handler body whose outcome is success or a thrown
error. -/
structure Handler where
  name : String
  canH : BlockchainEvent → Bool
  handle : BlockchainEvent → Except String Unit

/-- `EventDispatcherService` state: the real fields (`handlers`,
`eventQueue`, `isProcessing`) plus ghost fields recording the full
arrival order, the handler-invocation order, the error log, and the
number of drain loops currently running. -/
structure DispatcherState where
  handlers : List Handler
  queue : List BlockchainEvent
  isProcessing : Bool
  current : Option BlockchainEvent
  arrivals : List BlockchainEvent
  invoked : List BlockchainEvent
  errorLog : List String
  activeWorkers : ℕ

def initialState (hs : List Handler) : DispatcherState :=
  { handlers := hs
    queue := []
    isProcessing := false
    current := none
    arrivals := []
    invoked := []
    errorLog := []
    activeWorkers := 0 }

/-- `processEvent` (lines 47-68): the eligible handlers
(`handlers.filter(h => h.canHandle(event))`) all run; each one's
outcome is collected (`Promise.allSettled`), failures never propagate. -/
def processEvent (hs : List Handler) (ev : BlockchainEvent) :
    List (String × Except String Unit) :=
  (hs.filter (fun h => h.canH ev)).map (fun h => (h.name, h.handle ev))

/-- The error-log entries produced by one event's handler fan-out
(`logger.error` in the per-handler catch). -/
def errorsOf (outcomes : List (String × Except String Unit)) : List String :=
  outcomes.filterMap (fun p =>
    match p.2 with
    | .error e => some (p.1 ++ ": " ++ e)
    | .ok _ => none)

/-- The synchronous prefix of one iteration of `processEventQueue`'s
`while` loop: pop the head, record its handler invocations, or exit the
loop (reset `isProcessing`) when the queue is empty. -/
def beginEvent (s : DispatcherState) : DispatcherState :=
  match s.queue with
  | [] =>
      { s with
        isProcessing := false
        current := none
        activeWorkers := s.activeWorkers - 1 }
  | ev :: rest =>
      { s with
        queue := rest
        current := some ev
        invoked := s.invoked ++ [ev]
        errorLog := s.errorLog ++ errorsOf (processEvent s.handlers ev) }

/-- The atomic steps of the JS event loop (run-to-completion between
`await` suspension points):
* `dispatch ev` — `dispatchEvent` pushes onto the queue; if
  `isProcessing` is unset the caller becomes the worker
  (`processEventQueue` sets the flag and runs to the first `await`);
* `complete` — the `await Promise.allSettled` of the current event
  resolves and the loop body runs again. -/
inductive DStep where
  | dispatch (ev : BlockchainEvent)
  | complete

def step (s : DispatcherState) : DStep → DispatcherState
  | .dispatch ev =>
      if s.isProcessing then
        { s with queue := s.queue ++ [ev], arrivals := s.arrivals ++ [ev] }
      else
        beginEvent
          { s with
            queue := s.queue ++ [ev]
            arrivals := s.arrivals ++ [ev]
            isProcessing := true
            activeWorkers := s.activeWorkers + 1 }
  | .complete =>
      match s.current with
      | none => s
      | some _ => beginEvent { s with current := none }

def run (s : DispatcherState) (l : List DStep) : DispatcherState := l.foldl step s

/-- The inductive invariant of the dispatcher machine. -/
def Inv (s : DispatcherState) : Prop :=
  s.arrivals = s.invoked ++ s.queue
    ∧ s.activeWorkers = (if s.isProcessing then 1 else 0)
    ∧ (s.isProcessing = false → s.queue = [] ∧ s.current = none)

/-- A handler whose body always throws (spec scenario: handler A). -/
def failingHandler : Handler :=
  { name := "A", canH := fun _ => true, handle := fun _ => .error "boom" }

/-- A handler whose body always succeeds (spec scenario: handler B). -/
def okHandler : Handler :=
  { name := "B", canH := fun _ => true, handle := fun _ => .ok () }

end Dispatcher

namespace Listener

open JsNum Model

/-- The canonical `Approval(address,address,uint256)` topic-0 hash
(`getEventNamesFromConfig` / `getEventSignature` tables). -/
def APPROVAL_EVENT_SIGNATURE : String :=
  "0x8c5be1e5ebec7d5bd14f71427d1e84f3dd0314c0f7b2291e5b200ac8c7c3b925"

/-- One upstream log as returned by `contract.queryFilter` (an
`ethers.EventLog`): position plus the decoded arguments, kept as
decimal/hex strings as the call sites render them. -/
structure RawLog where
  blockNumber : ℕ
  logIndex : ℕ
  transactionIndex : ℕ
  transactionHash : String
  args : List String
  deriving DecidableEq

/-- `ContractConfig` as the listener consumes it: address/metadata,
the monitored topic-0 hashes (`events`), and the event names the ABI
actually defines (`contract.filters[name]` is undefined otherwise). -/
structure ContractConfig where
  address : String
  name : String
  symbol : String
  ctype : String
  events : List String
  abiEvents : List String
  decimals : Option ℕ
  isStablecoin : Bool
  deriving DecidableEq

/-- The upstream RPC oracle for one tick: latest block height, the log
query, block timestamps and transaction receipts (`gasUsed`, `status`);
`none` models a missing receipt. -/
structure Chain where
  latestBlock : ℕ
  queryFilter : String → String → ℕ → ℕ → List RawLog
  blockTimestamp : ℕ → ℕ
  receipt : String → Option (ℕ × ℕ)

/-- The `knownEvents` table of `getEventNamesFromConfig` (lines
437-447): topic-0 hash to event name, unknown hashes filtered out. -/
def knownEventName (sig : String) : Option String :=
  if sig = TRANSFER_EVENT_SIGNATURE then some "Transfer"
  else if sig = APPROVAL_EVENT_SIGNATURE then some "Approval"
  else none

def getEventNamesFromConfig (c : ContractConfig) : List String :=
  c.events.filterMap knownEventName

/-- The intermediate event record assembled inside
`getAllContractEventsInRange` (lines 308-358). -/
structure ScanEvent where
  eventName : String
  blockNumber : ℕ
  transactionHash : String
  args : List String
  timestamp : ℕ
  logIndex : ℕ
  transactionIndex : ℕ
  config : ContractConfig
  deriving DecidableEq

/-- One `queryFilter` call for one event name (lines 337-358): nothing
if the ABI defines no such filter, otherwise every returned log mapped
to a `ScanEvent` with `timestamp := 0` (filled later). -/
def queryContractEvent (ch : Chain) (c : ContractConfig) (a b : ℕ)
    (eventName : String) : List ScanEvent :=
  if eventName ∈ c.abiEvents then
    (ch.queryFilter c.address eventName a b).map (fun lg =>
      { eventName := eventName
        blockNumber := lg.blockNumber
        transactionHash := lg.transactionHash
        args := lg.args
        timestamp := 0
        logIndex := lg.logIndex
        transactionIndex := lg.transactionIndex
        config := c })
  else []

/-- All events of one contract: the event names are processed through
`processBatches` in chunks of 2, each batch's query results are
flattened (`Promise.all(...).flat()`), and the batches concatenated. -/
def contractEvents (ch : Chain) (a b : ℕ) (c : ContractConfig) : List ScanEvent :=
  ((EvmConstants.listChunks 2 (getEventNamesFromConfig c)).map
    (fun batch => (batch.map (queryContractEvent ch c a b)).flatten)).flatten

/-- The unsorted `allEvents` array of `getAllContractEventsInRange`
(lines 316-390): contracts in `batchSize` chunks, each batch's per-
contract results flattened and appended. -/
def getAllContractEventsUnsorted (ch : Chain) (configs : List ContractConfig)
    (batchSize a b : ℕ) : List ScanEvent :=
  ((EvmConstants.listChunks batchSize configs).map
    (fun batch => (batch.map (contractEvents ch a b)).flatten)).flatten

/-- The sort comparator of line 393-398 as a relation: ascending
`(blockNumber, logIndex)`. -/
def scanLe (x y : ScanEvent) : Prop :=
  x.blockNumber < y.blockNumber
    ∨ (x.blockNumber = y.blockNumber ∧ x.logIndex ≤ y.logIndex)

instance : DecidableRel scanLe := fun x y => by
  unfold scanLe; exact inferInstance

instance : IsTotal ScanEvent scanLe :=
  ⟨fun x y => by unfold scanLe; omega⟩

instance : IsTrans ScanEvent scanLe :=
  ⟨fun x y z hxy hyz => by unfold scanLe at *; omega⟩

/-- Timestamp fill-in (lines 402-434): every event's block number is in
`uniqueBlocks`, so the final map rewrites `timestamp` to the block
timestamp in seconds times 1000. -/
def withTimestamp (ch : Chain) (e : ScanEvent) : ScanEvent :=
  { e with timestamp := ch.blockTimestamp e.blockNumber * 1000 }

/-- `getAllContractEventsInRange` (lines 303-435): collect, sort by
`(blockNumber, logIndex)`, attach timestamps. -/
def getAllContractEventsInRange (ch : Chain) (configs : List ContractConfig)
    (batchSize a b : ℕ) : List ScanEvent :=
  (List.insertionSort scanLe (getAllContractEventsUnsorted ch configs batchSize a b)).map
    (withTimestamp ch)

/-- `config.metadata?.decimals || 18` — `undefined` and `0` are falsy
and fall back to 18. -/
def listenerDecimals (c : ContractConfig) : ℕ :=
  if optFalsy c.decimals then 18 else c.decimals.getD 18

/-- `EvmBlockScanListener.formatTokenValue` (lines 602-618): the same
computation as `formatTokenAmount` in `evm-constants.ts`, with the
decimals taken from the contract config. -/
def listenerFormatTokenValue (value : String) (c : ContractConfig) : String :=
  EvmConstants.formatTokenAmount value (listenerDecimals c : ℤ)

/-- `EvmBlockScanListener.isLargeTransfer` (lines 619-635) on a string
value: an unparseable `BigInt(value)` is caught and yields `false`; a
negative value gives a non-positive binary64 quotient, below both
positive thresholds, so it also yields `false`; otherwise it is the
bigint comparison of `evm-constants.ts`. -/
def listenerIsLargeTransfer (value : String) (c : ContractConfig) : Bool :=
  match EvmConstants.jsBigIntOfString value with
  | none => false
  | some v =>
      if v < 0 then false
      else EvmConstants.isLargeTransfer v.toNat (listenerDecimals c) c.isStablecoin

/-- `getEventSignature` (lines 520-527): the known-signature table,
empty string for unknown names. -/
def getEventSignature (name : String) : String :=
  if name = "Transfer" then TRANSFER_EVENT_SIGNATURE
  else if name = "Approval" then APPROVAL_EVENT_SIGNATURE
  else ""

/-- `formatEventArgs` (lines 554-582). -/
def formatEventArgs (eventName : String) (args : List String)
    (c : ContractConfig) : EventArgs :=
  if eventName = "Transfer" ∧ 3 ≤ args.length then
    .transferArgs (args.getD 0 "") (args.getD 1 "") (args.getD 2 "")
      (listenerFormatTokenValue (args.getD 2 "") c)
      (listenerIsLargeTransfer (args.getD 2 "") c)
  else if eventName = "Approval" ∧ 3 ≤ args.length then
    .approvalArgs (args.getD 0 "") (args.getD 1 "") (args.getD 2 "")
      (listenerFormatTokenValue (args.getD 2 "") c)
  else .rawArgs args

/-- The `BlockchainEvent` literal of `processContractEvent` (lines
471-502): note `topics := []` and `data := "0x"`. -/
def buildBlockchainEvent (chainId : ℕ) (e : ScanEvent) (gasUsed status : ℕ) :
    BlockchainEvent :=
  { chainId := chainId
    blockNumber := e.blockNumber
    transactionHash := e.transactionHash
    eventType := "contract_log"
    contractAddress := e.config.address
    data := { topics := []
              dataHex := "0x"
              logIndex := e.logIndex
              transactionIndex := e.transactionIndex
              gasUsed := gasUsed
              status := status
              contractName := e.config.name
              contractSymbol := e.config.symbol
              contractType := e.config.ctype
              eventName := e.eventName
              eventSignatureHash := getEventSignature e.eventName
              args := formatEventArgs e.eventName e.args e.config }
    timestamp := e.timestamp }

/-- `processContractEvent` (lines 449-519): skip (warn) when the
receipt is missing, otherwise build the event and dispatch it. -/
def processContractEvent (ch : Chain) (chainId : ℕ) (e : ScanEvent) :
    Option BlockchainEvent :=
  match ch.receipt e.transactionHash with
  | none => none
  | some (gasUsed, status) => some (buildBlockchainEvent chainId e gasUsed status)

/-- The `for (const event of allEvents)` loop of
`processBlockRangeWithBatching` (lines 284-287): before each event the
running flag is consulted (`if (!this.isRunning()) break`), indexed here
by the iteration count; the result is the list of dispatched events in
dispatch order. -/
def processEventsLoop (ch : Chain) (chainId : ℕ) (runningAt : ℕ → Bool) :
    ℕ → List ScanEvent → List BlockchainEvent
  | _, [] => []
  | i, e :: rest =>
      if runningAt i then
        match processContractEvent ch chainId e with
        | none => processEventsLoop ch chainId runningAt (i + 1) rest
        | some ev => ev :: processEventsLoop ch chainId runningAt (i + 1) rest
      else []

/-- `processBlockRangeWithBatching` (lines 255-301): nothing to do
without contracts, otherwise drain the sorted range. -/
def processBlockRangeWithBatching (ch : Chain) (configs : List ContractConfig)
    (batchSize : ℕ) (runningAt : ℕ → Bool) (chainId a b : ℕ) :
    List BlockchainEvent :=
  if configs.isEmpty then []
  else processEventsLoop ch chainId runningAt 0
    (getAllContractEventsInRange ch configs batchSize a b)

/-- `scanForNewBlocks` (lines 215-253): returns the new cursor and the
dispatched events.  When new blocks exist the cursor is set to
`endBlock` unconditionally after `processBlockRangeWithBatching`
returns — also when the drain loop broke out early. -/
def scanForNewBlocks (ch : Chain) (configs : List ContractConfig)
    (bps batchSize : ℕ) (runningAt : ℕ → Bool) (chainId lpb : ℕ) :
    ℕ × List BlockchainEvent :=
  if ch.latestBlock ≤ lpb then (lpb, [])
  else
    (min ch.latestBlock (lpb + 1 + bps - 1),
      processBlockRangeWithBatching ch configs batchSize runningAt chainId
        (lpb + 1) (min ch.latestBlock (lpb + 1 + bps - 1)))

/-- The identity of an enqueued event: position plus transaction hash. -/
def eventKeyL (ev : BlockchainEvent) : ℕ × ℕ × String :=
  (ev.blockNumber, ev.data.logIndex, ev.transactionHash)

/-- The identity of an upstream log. -/
def scanKey (e : ScanEvent) : ℕ × ℕ × String :=
  (e.blockNumber, e.logIndex, e.transactionHash)

end Listener

namespace Listener

open Model

/-- A concrete monitored contract for test runs. -/
def cfgEx : ContractConfig :=
  { address := "0xc000"
    name := "TestToken"
    symbol := "TST"
    ctype := "ERC20"
    events := [TRANSFER_EVENT_SIGNATURE]
    abiEvents := ["Transfer"]
    decimals := some 6
    isStablecoin := true }

/-- Two upstream logs, returned out of `(blockNumber, logIndex)` order. -/
def logEx1 : RawLog :=
  { blockNumber := 5
    logIndex := 1
    transactionIndex := 0
    transactionHash := "0xt1"
    args := ["0xa", "0xb", "42"] }

def logEx0 : RawLog :=
  { blockNumber := 2
    logIndex := 0
    transactionIndex := 1
    transactionHash := "0xt2"
    args := ["0xa", "0xb", "7"] }

/-- A concrete chain oracle: 10 blocks, both logs for every Transfer
query, receipts always present. -/
def chEx : Chain :=
  { latestBlock := 10
    queryFilter := fun _ _ _ _ => [logEx1, logEx0]
    blockTimestamp := fun _ => 1700
    receipt := fun _ => some (21000, 1) }

/-- The same chain except that the transaction of the block-5 log has
no receipt: `getTransactionReceipt` returns `null` for `"0xt1"`. -/
def chExMissing : Chain :=
  { latestBlock := 10
    queryFilter := fun _ _ _ _ => [logEx1, logEx0]
    blockTimestamp := fun _ => 1700
    receipt := fun h => if h = "0xt2" then some (21000, 1) else none }

end Listener

namespace JsNum

theorem natLog2F_spec :
    ∀ (fuel n : ℕ), 0 < n → n < 2 ^ fuel →
      2 ^ natLog2F fuel n ≤ n ∧ n < 2 ^ (natLog2F fuel n + 1) := by
  intro fuel
  induction fuel with
  | zero =>
    intro n hn hlt
    simp only [pow_zero] at hlt
    omega
  | succ fuel ih =>
    intro n hn hlt
    by_cases h2 : 2 ≤ n
    · have hhalfpos : 0 < n / 2 := Nat.div_pos h2 (by norm_num)
      have hhalflt : n / 2 < 2 ^ fuel := by
        have : n < 2 ^ fuel * 2 := by
          simpa [pow_succ] using hlt
        omega
      obtain ⟨hlo, hhi⟩ := ih (n / 2) hhalfpos hhalflt
      have hstep : natLog2F (fuel + 1) n = natLog2F fuel (n / 2) + 1 := by
        simp [natLog2F, h2]
      constructor
      · rw [hstep, pow_succ]
        omega
      · rw [hstep, pow_succ, pow_succ]
        omega
    · have hn1 : n = 1 := by omega
      have hstep : natLog2F (fuel + 1) n = 0 := by
        simp [natLog2F, h2]
      rw [hstep, hn1]
      norm_num

theorem Frac.val_nonneg (x : Frac) : 0 ≤ x.val := by
  unfold Frac.val
  positivity

theorem Frac.val_pos (x : Frac) (hn : 0 < x.num) (hd : 0 < x.den) : 0 < x.val := by
  unfold Frac.val
  have h1 : (0:ℚ) < (x.num : ℚ) := by exact_mod_cast hn
  have h2 : (0:ℚ) < (x.den : ℚ) := by exact_mod_cast hd
  positivity

theorem rheN_cases (x : Frac) : rheN x = x.num / x.den ∨ rheN x = x.num / x.den + 1 := by
  unfold rheN
  split
  · left; rfl
  · split
    · right; rfl
    · split
      · left; rfl
      · right; rfl

theorem rheN_ge (x : Frac) (c : ℕ) (hd : 0 < x.den) (h : c * x.den ≤ x.num) :
    c ≤ rheN x := by
  have hfc : c ≤ x.num / x.den := (Nat.le_div_iff_mul_le hd).2 h
  rcases rheN_cases x with h' | h' <;> omega

theorem rheN_exact (x : Frac) (hd : 0 < x.den) (h : x.den ∣ x.num) :
    rheN x = x.num / x.den := by
  have hr : x.num % x.den = 0 := Nat.mod_eq_zero_of_dvd h
  unfold rheN
  simp [hr, hd]

/-- The value of a fraction splits as quotient plus remainder part. -/
theorem Frac.val_eq_div_add (x : Frac) (hd : 0 < x.den) :
    x.val = (x.num / x.den : ℕ) + ((x.num % x.den : ℕ) : ℚ) / (x.den : ℚ) := by
  have hden : ((x.den : ℚ)) ≠ 0 := by
    exact_mod_cast hd.ne'
  have h := Nat.div_add_mod x.num x.den
  have h2 : ((x.num / x.den : ℕ) : ℚ) + ((x.num % x.den : ℕ) : ℚ) / (x.den : ℚ)
      = ((x.den * (x.num / x.den) + x.num % x.den : ℕ) : ℚ) / (x.den : ℚ) := by
    push_cast
    field_simp
    ring
  rw [Frac.val, h2, h]

/-- Round half to even lands within a half of the true value. -/
theorem rheN_err (x : Frac) (hd : 0 < x.den) :
    |((rheN x : ℚ)) - x.val| ≤ 1 / 2 := by
  have hden : (0:ℚ) < (x.den : ℚ) := by exact_mod_cast hd
  have hq := Frac.val_eq_div_add x hd
  have hrlt : x.num % x.den < x.den := Nat.mod_lt _ hd
  have hr0 : (0:ℚ) ≤ ((x.num % x.den : ℕ) : ℚ) / (x.den : ℚ) := by positivity
  unfold rheN
  split
  · -- 2 r < den : rounds down, error r/den ≤ 1/2
    rename_i hlt
    have hl : (2 * (x.num % x.den : ℕ) : ℚ) < (x.den : ℚ) := by exact_mod_cast hlt
    have hfrac : ((x.num % x.den : ℕ) : ℚ) / (x.den : ℚ) ≤ 1 / 2 := by
      rw [div_le_div_iff hden (by norm_num)]
      push_cast at hl ⊢
      nlinarith
    rw [hq, abs_sub_comm]
    rw [abs_of_nonneg (by linarith)]
    linarith
  · split
    · -- den < 2 r : rounds up, error 1 - r/den < 1/2
      rename_i hgt
      have hg : (x.den : ℚ) < (2 * (x.num % x.den : ℕ) : ℚ) := by exact_mod_cast hgt
      have hfrac : 1 / 2 ≤ ((x.num % x.den : ℕ) : ℚ) / (x.den : ℚ) := by
        rw [div_le_div_iff (by norm_num) hden]
        push_cast at hg ⊢
        nlinarith
      have hfr1 : ((x.num % x.den : ℕ) : ℚ) / (x.den : ℚ) < 1 := by
        rw [div_lt_one hden]
        exact_mod_cast hrlt
      rw [hq]
      push_cast
      rw [abs_of_nonneg (by linarith)]
      linarith
    · -- exact tie: error exactly 1/2 either way
      rename_i h1 h2
      have h3 : 2 * (x.num % x.den) = x.den := by omega
      have hrpos : 0 < x.num % x.den := by omega
      have htie : ((x.num % x.den : ℕ) : ℚ) / (x.den : ℚ) = 1 / 2 := by
        have hden2 : ((x.den : ℕ) : ℚ) = 2 * ((x.num % x.den : ℕ) : ℚ) := by
          exact_mod_cast congrArg (fun n : ℕ => (n : ℚ)) h3.symm
        rw [hden2, div_eq_div_iff (by positivity) (by norm_num)]
        ring
      split
      · rw [hq, htie, abs_sub_comm]
        rw [abs_of_nonneg (by norm_num)]
        norm_num
      · rw [hq, htie]
        push_cast
        rw [abs_of_nonneg (by norm_num)]
        norm_num

theorem qexpF_spec (x : Frac) (hn : 0 < x.num) (hd : 0 < x.den)
    (hbn : x.num < 2 ^ logFuel) (hbd : x.den < 2 ^ logFuel) :
    (2:ℚ) ^ qexpF x ≤ x.val ∧ x.val < (2:ℚ) ^ (qexpF x + 1) := by
  have hdenQ : (0:ℚ) < (x.den : ℚ) := by exact_mod_cast hd
  have hnumQ : (0:ℚ) < (x.num : ℚ) := by exact_mod_cast hn
  unfold qexpF
  split
  · -- x.val ≥ 1
    rename_i hge
    have hqpos : 0 < x.num / x.den := Nat.div_pos hge hd
    have hqlt : x.num / x.den < 2 ^ logFuel :=
      lt_of_le_of_lt (Nat.div_le_self _ _) hbn
    obtain ⟨hlo, hhi⟩ := natLog2F_spec logFuel (x.num / x.den) hqpos hqlt
    set L := natLog2F logFuel (x.num / x.den) with hL
    constructor
    · -- 2^L ≤ num/den
      rw [zpow_natCast]
      rw [Frac.val, le_div_iff₀ hdenQ]
      have h1 : 2 ^ L * x.den ≤ x.num := (Nat.le_div_iff_mul_le hd).1 hlo
      exact_mod_cast h1
    · -- num/den < 2^(L+1)
      have h1 : x.num < 2 ^ (L + 1) * x.den := by
        have h2 : x.num / x.den + 1 ≤ 2 ^ (L + 1) := hhi
        have h3 : x.num < (x.num / x.den + 1) * x.den := by
          have hdm := Nat.div_add_mod x.num x.den
          have hml := Nat.mod_lt x.num hd
          have hexp : (x.num / x.den + 1) * x.den = x.den * (x.num / x.den) + x.den := by
            ring
          omega
        calc x.num < (x.num / x.den + 1) * x.den := h3
          _ ≤ 2 ^ (L + 1) * x.den := Nat.mul_le_mul_right _ h2
      have hz : ((L : ℤ) + 1) = ((L + 1 : ℕ) : ℤ) := by push_cast; ring
      rw [Frac.val, div_lt_iff₀ hdenQ, hz, zpow_natCast]
      exact_mod_cast h1
  · -- 0 < x.val < 1
    rename_i hlt
    push_neg at hlt
    have hrpos : 0 < x.den / x.num := Nat.div_pos (le_of_lt hlt) hn
    have hrlt : x.den / x.num < 2 ^ logFuel :=
      lt_of_le_of_lt (Nat.div_le_self _ _) hbd
    obtain ⟨hlo, hhi⟩ := natLog2F_spec logFuel (x.den / x.num) hrpos hrlt
    set K := natLog2F logFuel (x.den / x.num) with hK
    -- num * 2^K ≤ den  and  den < num * 2^(K+1)
    have hup : x.num * 2 ^ K ≤ x.den := by
      rw [Nat.mul_comm]
      exact (Nat.le_div_iff_mul_le hn).1 hlo
    have hdown : x.den < x.num * 2 ^ (K + 1) := by
      have h3 : x.den < (x.den / x.num + 1) * x.num := by
        have hdm := Nat.div_add_mod x.den x.num
        have hml := Nat.mod_lt x.den hn
        have hexp : (x.den / x.num + 1) * x.num = x.num * (x.den / x.num) + x.num := by
          ring
        omega
      have h2 : x.den / x.num + 1 ≤ 2 ^ (K + 1) := hhi
      calc x.den < (x.den / x.num + 1) * x.num := h3
        _ ≤ 2 ^ (K + 1) * x.num := Nat.mul_le_mul_right _ h2
        _ = x.num * 2 ^ (K + 1) := Nat.mul_comm _ _
    have hupQ : (x.num : ℚ) * 2 ^ K ≤ (x.den : ℚ) := by exact_mod_cast hup
    have hdownQ : (x.den : ℚ) < (x.num : ℚ) * 2 ^ (K + 1) := by exact_mod_cast hdown
    have hpow : (0:ℚ) < (2:ℚ) ^ K := by positivity
    split
    · -- exact power of two: val = 2^(-K)
      rename_i hexact
      have hexQ : (x.num : ℚ) * 2 ^ K = (x.den : ℚ) := by exact_mod_cast hexact
      have hval : x.val = (2:ℚ) ^ (-(K:ℤ)) := by
        rw [Frac.val, ← hexQ]
        rw [zpow_neg, zpow_natCast]
        field_simp
      constructor
      · exact hval.symm.le
      · calc x.val = (2:ℚ) ^ (-(K:ℤ)) := hval
          _ < (2:ℚ) ^ (-(K:ℤ) + 1) := by
            apply zpow_lt_zpow_right₀ (by norm_num)
            omega
    · -- strictly between powers: val ∈ (2^(-(K+1)), 2^(-K))
      rename_i hne
      have hstrict : x.num * 2 ^ K < x.den := lt_of_le_of_ne hup hne
      have hstrictQ : (x.num : ℚ) * 2 ^ K < (x.den : ℚ) := by exact_mod_cast hstrict
      constructor
      · -- 2^(-K-1) ≤ val
        have h1 : (2:ℚ) ^ (-(K:ℤ) - 1) = 1 / ((2:ℚ) ^ (K + 1)) := by
          rw [← zpow_natCast (2:ℚ) (K + 1)]
          rw [one_div, ← zpow_neg]
          congr 1
          push_cast
          ring
        rw [h1, Frac.val, div_le_div_iff₀ (by positivity) hdenQ]
        linarith only [hdownQ]
      · -- val < 2^(-K-1+1) = 2^(-K)
        have h1 : (2:ℚ) ^ (-(K:ℤ) - 1 + 1) = 1 / ((2:ℚ) ^ K) := by
          rw [← zpow_natCast (2:ℚ) K, one_div, ← zpow_neg]
          congr 1
          push_cast
          ring
        rw [h1, Frac.val, div_lt_div_iff₀ hdenQ (by positivity)]
        linarith only [hstrictQ]

theorem roundF_den_pos (x : Frac) : 0 < (roundF x).den := by
  unfold roundF
  split
  · norm_num
  · split
    · exact Nat.pos_pow_of_pos _ (by norm_num)
    · norm_num

theorem rheN_den_one (n : ℕ) : rheN ⟨n, 1⟩ = n := by
  unfold rheN
  simp [Nat.mod_one]

/-- Rounding moves the value by at most half an ulp of the grid that
`qexpF` selected. -/
theorem roundF_err (x : Frac) (hn : 0 < x.num) (hd : 0 < x.den) :
    |(roundF x).val - x.val| ≤ (2:ℚ) ^ (qexpF x - 53) := by
  unfold roundF
  rw [if_neg hn.ne']
  split
  · -- subunit grid: scale the numerator up by 2 ^ (52 - e)
    rename_i hg
    set s := (52 - qexpF x).toNat with hs
    have hsz : (s:ℤ) = 52 - qexpF x := Int.toNat_of_nonneg (by omega)
    have hspos : (0:ℚ) < 2 ^ s := by positivity
    have herr := rheN_err ⟨x.num * 2 ^ s, x.den⟩ hd
    have hyval : (Frac.val ⟨x.num * 2 ^ s, x.den⟩) = x.val * 2 ^ s := by
      unfold Frac.val
      push_cast
      ring
    rw [hyval] at herr
    have hres : (Frac.val ⟨rheN ⟨x.num * 2 ^ s, x.den⟩, 2 ^ s⟩)
        = ((rheN ⟨x.num * 2 ^ s, x.den⟩ : ℕ) : ℚ) / 2 ^ s := by
      unfold Frac.val
      push_cast
      rfl
    rw [hres]
    have hsplit : ((rheN ⟨x.num * 2 ^ s, x.den⟩ : ℕ) : ℚ) / 2 ^ s - x.val
        = (((rheN ⟨x.num * 2 ^ s, x.den⟩ : ℕ) : ℚ) - x.val * 2 ^ s) / 2 ^ s := by
      field_simp
      ring
    rw [hsplit, abs_div, abs_of_pos hspos]
    have hstep : |((rheN ⟨x.num * 2 ^ s, x.den⟩ : ℕ) : ℚ) - x.val * 2 ^ s| / 2 ^ s
        ≤ (1 / 2) / 2 ^ s := by
      gcongr
    refine hstep.trans (le_of_eq ?_)
    have hpow : ((1:ℚ) / 2) / 2 ^ s = (2:ℚ) ^ (-(s:ℤ) - 1) := by
      rw [← zpow_natCast (2:ℚ) s]
      rw [show (-(s:ℤ) - 1) = (-(s:ℤ)) + (-1) by ring, zpow_add₀ (by norm_num : (2:ℚ) ≠ 0)]
      rw [zpow_neg, zpow_natCast, zpow_neg, zpow_one]
      ring
    rw [hpow]
    congr 1
    omega
  · -- superunit grid: scale the denominator up by 2 ^ (e - 52)
    rename_i hg
    set s := (qexpF x - 52).toNat with hs
    have hsz : (s:ℤ) = qexpF x - 52 := Int.toNat_of_nonneg (by omega)
    have hspos : (0:ℚ) < 2 ^ s := by positivity
    have hdpos : 0 < x.den * 2 ^ s := Nat.mul_pos hd (Nat.pos_pow_of_pos _ (by norm_num))
    have herr := rheN_err ⟨x.num, x.den * 2 ^ s⟩ hdpos
    have hyval : (Frac.val ⟨x.num, x.den * 2 ^ s⟩) = x.val / 2 ^ s := by
      unfold Frac.val
      push_cast
      field_simp
    rw [hyval] at herr
    have hres : (Frac.val ⟨rheN ⟨x.num, x.den * 2 ^ s⟩ * 2 ^ s, 1⟩)
        = ((rheN ⟨x.num, x.den * 2 ^ s⟩ : ℕ) : ℚ) * 2 ^ s := by
      unfold Frac.val
      push_cast
      ring
    rw [hres]
    have hsplit : ((rheN ⟨x.num, x.den * 2 ^ s⟩ : ℕ) : ℚ) * 2 ^ s - x.val
        = (((rheN ⟨x.num, x.den * 2 ^ s⟩ : ℕ) : ℚ) - x.val / 2 ^ s) * 2 ^ s := by
      field_simp
    rw [hsplit, abs_mul, abs_of_pos hspos]
    have hstep : |((rheN ⟨x.num, x.den * 2 ^ s⟩ : ℕ) : ℚ) - x.val / 2 ^ s| * 2 ^ s
        ≤ (1 / 2) * 2 ^ s := by
      gcongr
    refine hstep.trans (le_of_eq ?_)
    have hpow : ((1:ℚ) / 2) * 2 ^ s = (2:ℚ) ^ ((s:ℤ) - 1) := by
      rw [← zpow_natCast (2:ℚ) s]
      rw [show ((s:ℤ) - 1) = (s:ℤ) + (-1) by ring, zpow_add₀ (by norm_num : (2:ℚ) ≠ 0)]
      rw [zpow_neg, zpow_one]
      ring
    rw [hpow]
    congr 1
    omega

/-- Every dyadic value `m * 2 ^ k` with a 53-bit significand is a
binary64 value: rounding it is exact. -/
theorem roundF_dyadic_exact (m k : ℕ) (hm : 0 < m) (hm53 : m < 2 ^ 53)
    (hb : m * 2 ^ k < 2 ^ logFuel) :
    (roundF ⟨m * 2 ^ k, 1⟩).val = (m : ℚ) * 2 ^ k := by
  have hn : 0 < m * 2 ^ k := Nat.mul_pos hm (Nat.pos_pow_of_pos _ (by norm_num))
  have hd : (0:ℕ) < 1 := by norm_num
  have hspec := qexpF_spec ⟨m * 2 ^ k, 1⟩ hn hd hb (by unfold logFuel; norm_num)
  set e := qexpF ⟨m * 2 ^ k, 1⟩ with he
  have hval : (Frac.val ⟨m * 2 ^ k, 1⟩) = (m : ℚ) * 2 ^ k := by
    unfold Frac.val
    push_cast
    ring
  rw [hval] at hspec
  -- e ≤ k + 52 because the value is below 2 ^ (k + 53)
  have hek : e ≤ (k:ℤ) + 52 := by
    by_contra hcon
    push_neg at hcon
    have h1 : ((k:ℤ) + 53) ≤ e := by omega
    have h2 : (2:ℚ) ^ ((k:ℤ) + 53) ≤ (2:ℚ) ^ e :=
      zpow_le_zpow_right₀ (by norm_num) h1
    have h3 : (m : ℚ) * 2 ^ k < (2:ℚ) ^ ((k:ℤ) + 53) := by
      have h4 : (2:ℚ) ^ ((k:ℤ) + 53) = 2 ^ (k + 53 : ℕ) := by
        rw [show ((k:ℤ) + 53) = ((k + 53 : ℕ) : ℤ) by push_cast; ring, zpow_natCast]
      have hmq : (m:ℚ) < 2 ^ 53 := by exact_mod_cast hm53
      have hkpos : (0:ℚ) < (2:ℚ) ^ k := by positivity
      have h5 := mul_lt_mul_of_pos_right hmq hkpos
      rw [h4, pow_add]
      linarith only [h5]
    linarith [hspec.1, h2, h3]
  unfold roundF
  rw [if_neg hn.ne']
  rw [← he]
  split
  · -- grid at or below the integers: the scaled numerator is exact
    rename_i hg
    set s := (52 - e).toNat with hs
    have hexact := rheN_den_one (m * 2 ^ k * 2 ^ s)
    rw [hexact]
    unfold Frac.val
    push_cast
    have hspos : (0:ℚ) < 2 ^ s := by positivity
    field_simp
  · -- coarse grid: 2 ^ (e - 52) still divides m * 2 ^ k
    rename_i hg
    set s := (e - 52).toNat with hs
    have hsk : s ≤ k := by omega
    have hdvd : (1 * 2 ^ s : ℕ) ∣ m * 2 ^ k := by
      rw [one_mul]
      exact Dvd.dvd.mul_left (pow_dvd_pow 2 hsk) m
    have hdpos : (0:ℕ) < 1 * 2 ^ s := by positivity
    have hexact := rheN_exact ⟨m * 2 ^ k, 1 * 2 ^ s⟩ hdpos hdvd
    have hq : m * 2 ^ k / (1 * 2 ^ s) = m * 2 ^ (k - s) := by
      rw [one_mul]
      rw [Nat.mul_div_assoc m (pow_dvd_pow 2 hsk)]
      congr 1
      rw [Nat.pow_div hsk (by norm_num)]
    -- the rounded fraction is (m * 2 ^ (k - s)) * 2 ^ s over 1
    show Frac.val ⟨rheN ⟨m * 2 ^ k, 1 * 2 ^ s⟩ * 2 ^ s, 1⟩ = (m : ℚ) * 2 ^ k
    rw [hexact, hq]
    unfold Frac.val
    push_cast
    have hps : (2:ℚ) ^ (k - s) * 2 ^ s = 2 ^ k := by
      rw [← pow_add]
      congr 1
      omega
    rw [div_one, mul_assoc, hps]

/-- Integers below `2 ^ 53` convert to binary64 exactly
(`Number(bigint)` in the source). -/
theorem roundF_int_exact (n : ℕ) (h53 : n < 2 ^ 53) :
    (roundF ⟨n, 1⟩).val = (n : ℚ) := by
  rcases Nat.eq_zero_or_pos n with h0 | hpos
  · subst h0
    unfold roundF
    simp [Frac.val]
  · have hb : n * 2 ^ 0 < 2 ^ logFuel := by
      unfold logFuel
      calc n * 2 ^ 0 = n := by ring
        _ < 2 ^ 53 := h53
        _ ≤ 2 ^ 4200 := Nat.pow_le_pow_right (by norm_num) (by norm_num)
    have h := roundF_dyadic_exact n 0 hpos h53 hb
    simpa using h

theorem Frac.num_eq_of_val_nat (x : Frac) (v : ℕ) (hd : 0 < x.den) (h : x.val = v) :
    x.num = v * x.den := by
  have hdq : ((x.den : ℚ)) ≠ 0 := by
    exact_mod_cast hd.ne'
  have h2 : (x.num : ℚ) = (v : ℚ) * (x.den : ℚ) := by
    rw [Frac.val] at h
    field_simp at h
    exact_mod_cast h
  exact_mod_cast h2

theorem Frac.nat_le_val_iff (x : Frac) (c : ℕ) (hd : 0 < x.den) :
    c * x.den ≤ x.num ↔ (c : ℚ) ≤ x.val := by
  have hdq : (0:ℚ) < (x.den : ℚ) := by exact_mod_cast hd
  rw [Frac.val, le_div_iff₀ hdq]
  exact_mod_cast Iff.rfl

/-- Size of the binary64 approximation of an integer `1 ≤ n`: the
numerator picks up at most the scaling factor `2 ^ 52` and the
denominator is at most `2 ^ 52`. -/
theorem roundF_int_bounds (n : ℕ) (h1 : 0 < n) (hb : n < 2 ^ logFuel) :
    0 < (roundF ⟨n, 1⟩).num ∧ (roundF ⟨n, 1⟩).num ≤ n * 2 ^ 52 ∧
      (roundF ⟨n, 1⟩).den ≤ 2 ^ 52 := by
  have hspec := qexpF_spec ⟨n, 1⟩ h1 (by norm_num) hb (by unfold logFuel; norm_num)
  have hval1 : (Frac.val ⟨n, 1⟩) = (n : ℚ) := by
    unfold Frac.val
    norm_num
  rw [hval1] at hspec
  set e := qexpF ⟨n, 1⟩ with he
  have hnq : (1:ℚ) ≤ (n:ℚ) := by exact_mod_cast h1
  -- the exponent is non-negative since the value is at least one
  have he0 : 0 ≤ e := by
    by_contra hcon
    push_neg at hcon
    have h2 : e + 1 ≤ 0 := by omega
    have h3 : (2:ℚ) ^ (e + 1) ≤ (2:ℚ) ^ (0:ℤ) :=
      zpow_le_zpow_right₀ (by norm_num) h2
    rw [zpow_zero] at h3
    linarith only [hspec.2, h3, hnq]
  unfold roundF
  rw [if_neg h1.ne', ← he]
  split
  · -- fine grid
    rename_i hg
    have hs52 : (52 - e).toNat ≤ 52 := by omega
    refine ⟨?_, ?_, ?_⟩
    · have := rheN_den_one (n * 2 ^ (52 - e).toNat)
      simp only [this]
      positivity
    · have := rheN_den_one (n * 2 ^ (52 - e).toNat)
      simp only [this]
      exact Nat.mul_le_mul_left n (Nat.pow_le_pow_right (by norm_num) hs52)
    · exact Nat.pow_le_pow_right (by norm_num) hs52
  · -- coarse grid: value at least 2 ^ e ≥ 2 ^ s
    rename_i hg
    set s := (e - 52).toNat with hs
    simp only [one_mul]
    have h2e : (2:ℚ) ^ e ≤ (n:ℚ) := hspec.1
    have hse : (s:ℤ) ≤ e := by omega
    have h2s : (2:ℚ) ^ (s:ℤ) ≤ (n:ℚ) := le_trans (zpow_le_zpow_right₀ (by norm_num) hse) h2e
    have h2sn : 2 ^ s ≤ n := by
      have hq : ((2 ^ s : ℕ) : ℚ) ≤ (n : ℚ) := by
        push_cast
        calc ((2:ℚ)) ^ s = (2:ℚ) ^ (s:ℤ) := (zpow_natCast _ _).symm
          _ ≤ (n:ℚ) := h2s
      exact_mod_cast hq
    have hspos : 0 < 2 ^ s := Nat.pos_pow_of_pos _ (by norm_num)
    have hfpos : 1 ≤ n / 2 ^ s :=
      (Nat.le_div_iff_mul_le hspos).2 (by omega)
    refine ⟨?_, ?_, by norm_num⟩
    · rcases rheN_cases ⟨n, 2 ^ s⟩ with h' | h'
      · rw [h']
        exact Nat.mul_pos hfpos hspos
      · rw [h']
        exact Nat.mul_pos (Nat.succ_pos _) hspos
    · have hub : rheN ⟨n, 2 ^ s⟩ ≤ n / 2 ^ s + 1 := by
        rcases rheN_cases ⟨n, 2 ^ s⟩ with h' | h'
        · have h2 : rheN ⟨n, 2 ^ s⟩ = n / 2 ^ s := h'
          omega
        · have h2 : rheN ⟨n, 2 ^ s⟩ = n / 2 ^ s + 1 := h'
          omega
      calc rheN ⟨n, 2 ^ s⟩ * 2 ^ s ≤ (n / 2 ^ s + 1) * 2 ^ s :=
            Nat.mul_le_mul_right _ hub
        _ = (n / 2 ^ s) * 2 ^ s + 2 ^ s := by ring
        _ ≤ n + n := by
            have hd1 := Nat.div_mul_le_self n (2 ^ s)
            omega
        _ = n * 2 := by ring
        _ ≤ n * 2 ^ 52 := Nat.mul_le_mul_left n (by norm_num)

/-- If the exact value clears a threshold `T ∈ [2 ^ eT, 2 ^ (eT + 1))`
that is itself a binary64 value, then the rounded value still clears
it (`T` is on the rounding grid, and round-to-nearest never crosses a
grid point). -/
theorem roundF_ge (x : Frac) (T eT : ℕ) (hn : 0 < x.num) (hd : 0 < x.den)
    (hbn : x.num < 2 ^ logFuel) (hbd : x.den < 2 ^ logFuel)
    (heT : eT ≤ 52)
    (hT1 : (2:ℚ) ^ (eT:ℤ) ≤ (T:ℚ))
    (hT3 : (T:ℚ) ≤ (2:ℚ) ^ ((eT:ℤ) + 1) - (2:ℚ) ^ ((eT:ℤ) - 52))
    (hge : (T:ℚ) ≤ x.val) :
    (T:ℚ) ≤ (roundF x).val := by
  have hspec := qexpF_spec x hn hd hbn hbd
  set e := qexpF x with he
  have heeT : (eT:ℤ) ≤ e := by
    by_contra hcon
    push_neg at hcon
    have h1 : e + 1 ≤ (eT:ℤ) := by omega
    have h2 : (2:ℚ) ^ (e + 1) ≤ (2:ℚ) ^ (eT:ℤ) :=
      zpow_le_zpow_right₀ (by norm_num) h1
    linarith only [hspec.2, h2, hT1, hge]
  rcases eq_or_lt_of_le heeT with heq | hlt
  · -- the value is in the threshold's own binade: T is a grid point and
    -- rounding to nearest never drops below a grid point that the exact
    -- value dominates
    unfold roundF
    rw [if_neg hn.ne', ← he]
    rw [if_pos (by omega : e - 52 ≤ 0)]
    set s := (52 - e).toNat with hs
    have hsz : (s:ℤ) = 52 - e := Int.toNat_of_nonneg (by omega)
    have hTden : T * x.den ≤ x.num := by
      rw [Frac.nat_le_val_iff x T hd]
      exact hge
    have hscaled : (T * 2 ^ s) * x.den ≤ x.num * 2 ^ s := by
      calc (T * 2 ^ s) * x.den = (T * x.den) * 2 ^ s := by ring
        _ ≤ x.num * 2 ^ s := Nat.mul_le_mul_right _ hTden
    have hrge := rheN_ge ⟨x.num * 2 ^ s, x.den⟩ (T * 2 ^ s) hd hscaled
    have hdq : (0:ℚ) < ((2 ^ s : ℕ) : ℚ) := by
      push_cast
      positivity
    show (T:ℚ) ≤ Frac.val ⟨rheN ⟨x.num * 2 ^ s, x.den⟩, 2 ^ s⟩
    rw [Frac.val, le_div_iff₀ hdq]
    have : ((T * 2 ^ s : ℕ) : ℚ) ≤ ((rheN ⟨x.num * 2 ^ s, x.den⟩ : ℕ) : ℚ) := by
      exact_mod_cast hrge
    push_cast at this ⊢
    linarith only [this]
  · -- the value is at least one binade above the threshold: even a full
    -- half-ulp of error cannot bring it below T
    have herr := roundF_err x hn hd
    rw [← he] at herr
    have hlow : x.val - (2:ℚ) ^ (e - 53) ≤ (roundF x).val := by
      have habs := abs_le.mp herr
      linarith only [habs.1]
    have h1 : (2:ℚ) ^ (e - 53) * (2:ℚ) ^ (53:ℕ) = (2:ℚ) ^ e := by
      rw [← zpow_natCast (2:ℚ) 53, ← zpow_add₀ (by norm_num : (2:ℚ) ≠ 0)]
      congr 1
      push_cast
      ring
    have h2 : (2:ℚ) ^ ((eT:ℤ) - 52) * (2:ℚ) ^ (53:ℕ) = (2:ℚ) ^ ((eT:ℤ) + 1) := by
      rw [← zpow_natCast (2:ℚ) 53, ← zpow_add₀ (by norm_num : (2:ℚ) ≠ 0)]
      congr 1
      push_cast
      ring
    have hmono : (2:ℚ) ^ ((eT:ℤ) - 52) ≤ (2:ℚ) ^ (e - 53) :=
      zpow_le_zpow_right₀ (by norm_num) (by omega)
    have h53pos : (0:ℚ) < (2:ℚ) ^ (53:ℕ) - 1 := by norm_num
    have hstep3 : (2:ℚ) ^ ((eT:ℤ) - 52) * ((2:ℚ) ^ (53:ℕ) - 1)
        ≤ (2:ℚ) ^ (e - 53) * ((2:ℚ) ^ (53:ℕ) - 1) :=
      mul_le_mul_of_nonneg_right hmono (le_of_lt h53pos)
    have hexp1 : (2:ℚ) ^ (e - 53) * ((2:ℚ) ^ (53:ℕ) - 1)
        = (2:ℚ) ^ e - (2:ℚ) ^ (e - 53) := by
      rw [mul_sub, mul_one, h1]
    have hexp2 : (2:ℚ) ^ ((eT:ℤ) - 52) * ((2:ℚ) ^ (53:ℕ) - 1)
        = (2:ℚ) ^ ((eT:ℤ) + 1) - (2:ℚ) ^ ((eT:ℤ) - 52) := by
      rw [mul_sub, mul_one, h2]
    linarith only [hlow, hspec.1, hstep3, hexp1, hexp2, hT3]

theorem roundF_lt (x : Frac) (T eT : ℕ) (hn : 0 < x.num) (hd : 0 < x.den)
    (hbn : x.num < 2 ^ logFuel) (hbd : x.den < 2 ^ logFuel)
    (hup : x.val < (2:ℚ) ^ ((eT:ℤ) + 1))
    (hclose : x.val + (2:ℚ) ^ ((eT:ℤ) - 53) < (T:ℚ)) :
    (roundF x).val < (T:ℚ) := by
  have hspec := qexpF_spec x hn hd hbn hbd
  set e := qexpF x with he
  have heeT : e ≤ (eT:ℤ) := by
    by_contra hcon
    push_neg at hcon
    have h1 : (eT:ℤ) + 1 ≤ e := by omega
    have h2 : (2:ℚ) ^ ((eT:ℤ) + 1) ≤ (2:ℚ) ^ e :=
      zpow_le_zpow_right₀ (by norm_num) h1
    linarith only [hspec.1, h2, hup]
  have herr := roundF_err x hn hd
  rw [← he] at herr
  have hhigh : (roundF x).val ≤ x.val + (2:ℚ) ^ (e - 53) := by
    have habs := abs_le.mp herr
    linarith only [habs.2]
  have hmono : (2:ℚ) ^ (e - 53) ≤ (2:ℚ) ^ ((eT:ℤ) - 53) :=
    zpow_le_zpow_right₀ (by norm_num) (by omega)
  linarith only [hhigh, hmono, hclose]

end JsNum

namespace EvmConstants

open JsNum

theorem isLargeTransfer_some (d P : ℕ) (h : jsPow10BigInt d = some P)
    (v : ℕ) (s : Bool) :
    isLargeTransfer v d s =
      (if s then decide (100000 * (fdivF (jsNumber v) (jsNumber P)).den
          ≤ (fdivF (jsNumber v) (jsNumber P)).num)
        else decide (1000000 * (fdivF (jsNumber v) (jsNumber P)).den
          ≤ (fdivF (jsNumber v) (jsNumber P)).num)) := by
  unfold isLargeTransfer
  rw [h]

theorem pow10_eq_five_mul_two (d : ℕ) : (10:ℕ) ^ d = 5 ^ d * 2 ^ d := by
  rw [← Nat.mul_pow]

theorem pow10_lt_logFuel (d : ℕ) (hd : d ≤ 22) : (10:ℕ) ^ d < 2 ^ logFuel := by
  unfold logFuel
  calc (10:ℕ) ^ d ≤ 10 ^ 22 := Nat.pow_le_pow_right (by norm_num) hd
    _ < 2 ^ 74 := by norm_num
    _ ≤ 2 ^ 4200 := Nat.pow_le_pow_right (by norm_num) (by norm_num)

theorem five_pow_lt (d : ℕ) (hd : d ≤ 22) : (5:ℕ) ^ d < 2 ^ 53 := by
  calc (5:ℕ) ^ d ≤ 5 ^ 22 := Nat.pow_le_pow_right (by norm_num) hd
    _ < 2 ^ 53 := by norm_num

/-- For `decimals ≤ 22`, `10 ** decimals` is exact in binary64, so the
divisor bigint is exactly `10 ^ decimals`. -/
theorem jsNumber_pow10_val (d : ℕ) (hd : d ≤ 22) :
    (jsNumber (10 ^ d)).val = ((10 ^ d : ℕ) : ℚ) := by
  unfold jsNumber
  have h5 : 0 < (5:ℕ) ^ d := Nat.pos_pow_of_pos _ (by norm_num)
  have hexact := roundF_dyadic_exact (5 ^ d) d h5 (five_pow_lt d hd)
    (by rw [← pow10_eq_five_mul_two]; exact pow10_lt_logFuel d hd)
  rw [pow10_eq_five_mul_two]
  rw [hexact]
  push_cast
  ring

theorem jsPow10_eq (d : ℕ) (hd : d ≤ 22) : jsPow10BigInt d = some (10 ^ d) := by
  unfold jsPow10BigInt
  rw [if_pos (by omega : d ≤ 308)]
  congr 1
  have hdp := roundF_den_pos ⟨10 ^ d, 1⟩
  have hnum := Frac.num_eq_of_val_nat (roundF ⟨10 ^ d, 1⟩) (10 ^ d) hdp
    (jsNumber_pow10_val d hd)
  rw [hnum, Nat.mul_div_cancel _ hdp]

/-- Arithmetic core of the below-threshold direction: before rounding,
an exact quotient strictly below `T` stays a half-ulp short of `T`. -/
theorem gap_aux (T eT Dmax d v : ℕ)
    (hv53 : v < 2 ^ 53) (hlt : v < T * 10 ^ d)
    (hc1 : (10:ℚ) ^ Dmax * (2:ℚ) ^ ((eT:ℤ) - 53) < 1)
    (hc2 : ((2:ℚ) ^ (53:ℕ)) / (10:ℚ) ^ (Dmax + 1) + (2:ℚ) ^ ((eT:ℤ) - 53) < (T:ℚ)) :
    (v:ℚ) / (10:ℚ) ^ d + (2:ℚ) ^ ((eT:ℤ) - 53) < (T:ℚ) := by
  have h10 : (0:ℚ) < (10:ℚ) ^ d := by positivity
  by_cases hD : d ≤ Dmax
  · -- the quotient grid is coarser than a half-ulp at the threshold
    have hvle : (v:ℚ) ≤ (T:ℚ) * (10:ℚ) ^ d - 1 := by
      have h1 : (v + 1 : ℕ) ≤ T * 10 ^ d := hlt
      have h2 : ((v:ℚ) + 1) ≤ (T:ℚ) * (10:ℚ) ^ d := by
        push_cast at h1 ⊢
        exact_mod_cast h1
      linarith only [h2]
    have hq : (v:ℚ) / (10:ℚ) ^ d ≤ (T:ℚ) - 1 / (10:ℚ) ^ d := by
      rw [div_le_iff₀ h10]
      have hexp : ((T:ℚ) - 1 / (10:ℚ) ^ d) * (10:ℚ) ^ d = (T:ℚ) * (10:ℚ) ^ d - 1 := by
        field_simp
      rw [hexp]
      exact hvle
    have hmono : (10:ℚ) ^ d ≤ (10:ℚ) ^ Dmax := pow_le_pow_right₀ (by norm_num) hD
    have hsmall : (10:ℚ) ^ d * (2:ℚ) ^ ((eT:ℤ) - 53) < 1 :=
      lt_of_le_of_lt (mul_le_mul_of_nonneg_right hmono (by positivity)) hc1
    have hulp : (2:ℚ) ^ ((eT:ℤ) - 53) < 1 / (10:ℚ) ^ d := by
      rw [lt_div_iff₀ h10]
      linarith only [hsmall]
    linarith only [hq, hulp]
  · -- the quotient itself is far below the threshold
    push_neg at hD
    have hmono : (10:ℚ) ^ (Dmax + 1) ≤ (10:ℚ) ^ d := pow_le_pow_right₀ (by norm_num) (by omega)
    have hvq : (v:ℚ) < (2:ℚ) ^ (53:ℕ) := by exact_mod_cast hv53
    have h1 : (v:ℚ) / (10:ℚ) ^ d ≤ (v:ℚ) / (10:ℚ) ^ (Dmax + 1) := by
      gcongr
    have h2 : (v:ℚ) / (10:ℚ) ^ (Dmax + 1) < (2:ℚ) ^ (53:ℕ) / (10:ℚ) ^ (Dmax + 1) := by
      gcongr
    linarith only [h1, h2, hc2]

theorem fdivF_zero_num (b : Frac) : fdivF ⟨0, 1⟩ b = ⟨0, 1⟩ := by
  unfold fdivF roundF
  simp

/-- Shared core of the `isLargeTransfer` correctness proof: in the
exactly-representable range, the rounded quotient clears the threshold
`T` exactly when the true quotient does. -/
theorem threshold_core (value d T eT Dmax : ℕ)
    (hv53 : value < 2 ^ 53) (hvpos : 0 < value) (hd22 : d ≤ 22)
    (heT : eT ≤ 52)
    (hT1 : (2:ℚ) ^ (eT:ℤ) ≤ (T:ℚ))
    (hT2 : (T:ℚ) ≤ (2:ℚ) ^ ((eT:ℤ) + 1) - (2:ℚ) ^ ((eT:ℤ) - 52))
    (hc1 : (10:ℚ) ^ Dmax * (2:ℚ) ^ ((eT:ℤ) - 53) < 1)
    (hc2 : ((2:ℚ) ^ (53:ℕ)) / (10:ℚ) ^ (Dmax + 1) + (2:ℚ) ^ ((eT:ℤ) - 53) < (T:ℚ)) :
    (T * (fdivF (jsNumber value) (jsNumber (10 ^ d))).den
        ≤ (fdivF (jsNumber value) (jsNumber (10 ^ d))).num)
      ↔ T * 10 ^ d ≤ value := by
  have hvb : value < 2 ^ logFuel := by
    unfold logFuel
    calc value < 2 ^ 53 := hv53
      _ ≤ 2 ^ 4200 := Nat.pow_le_pow_right (by norm_num) (by norm_num)
  have hppos : 0 < (10:ℕ) ^ d := Nat.pos_pow_of_pos _ (by norm_num)
  have hpb := pow10_lt_logFuel d hd22
  obtain ⟨hanpos, hanle, hadle⟩ := roundF_int_bounds value hvpos hvb
  obtain ⟨hbnpos, hbnle, hbdle⟩ := roundF_int_bounds (10 ^ d) hppos hpb
  have hadpos : 0 < (roundF ⟨value, 1⟩).den := roundF_den_pos _
  have hbdpos : 0 < (roundF ⟨(10:ℕ) ^ d, 1⟩).den := roundF_den_pos _
  have hanum : (roundF ⟨value, 1⟩).num = value * (roundF ⟨value, 1⟩).den :=
    Frac.num_eq_of_val_nat _ value hadpos (roundF_int_exact value hv53)
  have hbnum : (roundF ⟨(10:ℕ) ^ d, 1⟩).num
      = 10 ^ d * (roundF ⟨(10:ℕ) ^ d, 1⟩).den :=
    Frac.num_eq_of_val_nat _ (10 ^ d) hbdpos (jsNumber_pow10_val d hd22)
  -- the exact quotient as a fraction
  set a := roundF ⟨value, 1⟩ with ha
  set b := roundF ⟨(10:ℕ) ^ d, 1⟩ with hb
  have hy : fdivF (jsNumber value) (jsNumber (10 ^ d))
      = roundF ⟨a.num * b.den, a.den * b.num⟩ := rfl
  set y : Frac := ⟨a.num * b.den, a.den * b.num⟩ with hydef
  have hynpos : 0 < y.num := Nat.mul_pos hanpos hbdpos
  have hydpos : 0 < y.den := Nat.mul_pos hadpos hbnpos
  have hyval : y.val = (value : ℚ) / ((10:ℚ) ^ d) := by
    show ((a.num * b.den : ℕ) : ℚ) / ((a.den * b.num : ℕ) : ℚ)
        = (value : ℚ) / ((10:ℚ) ^ d)
    rw [hanum, hbnum]
    have h1 : ((a.den : ℕ) : ℚ) ≠ 0 := by exact_mod_cast hadpos.ne'
    have h2 : ((b.den : ℕ) : ℚ) ≠ 0 := by exact_mod_cast hbdpos.ne'
    have h3 : ((10:ℚ) ^ d) ≠ 0 := by positivity
    push_cast
    field_simp
    ring
  have hynb : y.num < 2 ^ logFuel := by
    have h1 : y.num ≤ (value * 2 ^ 52) * 2 ^ 52 := Nat.mul_le_mul hanle hbdle
    have h2 : (value * 2 ^ 52) * 2 ^ 52 < 2 ^ 157 := by
      have hs : (0:ℕ) < 2 ^ 52 := Nat.pos_pow_of_pos _ (by norm_num)
      have h3 : value * 2 ^ 52 < 2 ^ 53 * 2 ^ 52 := (Nat.mul_lt_mul_right hs).mpr hv53
      have h4 : value * 2 ^ 52 * 2 ^ 52 < 2 ^ 53 * 2 ^ 52 * 2 ^ 52 :=
        (Nat.mul_lt_mul_right hs).mpr h3
      calc value * 2 ^ 52 * 2 ^ 52 < 2 ^ 53 * 2 ^ 52 * 2 ^ 52 := h4
        _ = 2 ^ 157 := by norm_num [← pow_add]
    have h4 : (2:ℕ) ^ 157 < 2 ^ logFuel := by
      unfold logFuel
      exact Nat.pow_lt_pow_right (by norm_num) (by norm_num)
    omega
  have hydb : y.den < 2 ^ logFuel := by
    have h1 : y.den ≤ 2 ^ 52 * (10 ^ d * 2 ^ 52) := Nat.mul_le_mul hadle hbnle
    have h2 : (10:ℕ) ^ d ≤ 10 ^ 22 := Nat.pow_le_pow_right (by norm_num) hd22
    have h3 : 2 ^ 52 * ((10:ℕ) ^ d * 2 ^ 52) ≤ 2 ^ 52 * (10 ^ 22 * 2 ^ 52) := by
      exact Nat.mul_le_mul_left _ (Nat.mul_le_mul_right _ h2)
    have h4 : 2 ^ 52 * ((10:ℕ) ^ 22 * 2 ^ 52) < 2 ^ 179 := by norm_num [← pow_add]
    have h5 : (2:ℕ) ^ 179 < 2 ^ logFuel := by
      unfold logFuel
      exact Nat.pow_lt_pow_right (by norm_num) (by norm_num)
    omega
  rw [hy]
  have hrdpos := roundF_den_pos y
  rw [Frac.nat_le_val_iff (roundF y) T hrdpos]
  constructor
  · -- if the rounded quotient clears T, the exact one does
    intro hge
    by_contra hcon
    push_neg at hcon
    have hlt := roundF_lt y T eT hynpos hydpos hynb hydb
      (by
        rw [hyval]
        have hq : (value:ℚ) / (10:ℚ) ^ d < (T:ℚ) := by
          rw [div_lt_iff₀ (by positivity : (0:ℚ) < (10:ℚ) ^ d)]
          have : (value : ℚ) < (T:ℚ) * ((10:ℚ) ^ d) := by
            have hc : (value : ℚ) < ((T * 10 ^ d : ℕ) : ℚ) := by exact_mod_cast hcon
            push_cast at hc
            linarith only [hc]
          linarith only [this]
        have hT2' : (T:ℚ) < (2:ℚ) ^ ((eT:ℤ) + 1) := by
          have hpos : (0:ℚ) < (2:ℚ) ^ ((eT:ℤ) - 52) := by positivity
          linarith only [hT2, hpos]
        linarith only [hq, hT2'])
      (by
        rw [hyval]
        exact gap_aux T eT Dmax d value hv53 hcon hc1 hc2)
    linarith only [hge, hlt]
  · -- if the exact quotient clears T, rounding keeps it above T
    intro hle
    apply roundF_ge y T eT hynpos hydpos hynb hydb heT hT1 hT2
    rw [hyval]
    rw [le_div_iff₀ (by positivity : (0:ℚ) < (10:ℚ) ^ d)]
    have hc : ((T * 10 ^ d : ℕ) : ℚ) ≤ (value : ℚ) := by exact_mod_cast hle
    push_cast at hc
    linarith only [hc]

end EvmConstants

namespace EvmConstants

open JsNum

theorem isLargeTransfer_exact_iff (value decimals : ℕ) (s : Bool)
    (hv53 : value < 2 ^ 53) (hd22 : decimals ≤ 22) :
    isLargeTransfer value decimals s = true
      ↔ (if s then 100000 else 1000000) * 10 ^ decimals ≤ value := by
  rw [isLargeTransfer_some decimals (10 ^ decimals) (jsPow10_eq decimals hd22) value s]
  rcases Nat.eq_zero_or_pos value with h0 | hvpos
  · subst h0
    have hz : jsNumber 0 = (⟨0, 1⟩ : Frac) := rfl
    rw [hz, fdivF_zero_num]
    have hp : 0 < (10:ℕ) ^ decimals := Nat.pos_pow_of_pos _ (by norm_num)
    cases s <;> simp <;> omega
  · cases s
    · simp only [Bool.false_eq_true, if_false, decide_eq_true_eq]
      exact threshold_core value decimals 1000000 19 10 hv53 hvpos hd22
        (by norm_num)
        (by norm_num)
        (by norm_num)
        (by norm_num)
        (by norm_num)
    · simp only [if_true, decide_eq_true_eq]
      exact threshold_core value decimals 100000 16 11 hv53 hvpos hd22
        (by norm_num)
        (by norm_num)
        (by norm_num)
        (by norm_num)
        (by norm_num)

end EvmConstants

namespace EvmConstants

open JsNum

theorem rhuN_eq_of_close (x : Frac) (n : ℕ) (hd : 0 < x.den)
    (h : |x.val - n| < 1 / 2) : rhuN x = n := by
  have hdq : (0:ℚ) < (x.den : ℚ) := by exact_mod_cast hd
  have hsplit := Frac.val_eq_div_add x hd
  set f : ℕ := x.num / x.den with hf
  have hrlt : x.num % x.den < x.den := Nat.mod_lt _ hd
  have hfrac0 : (0:ℚ) ≤ ((x.num % x.den : ℕ) : ℚ) / (x.den : ℚ) := by positivity
  have hfrac1 : ((x.num % x.den : ℕ) : ℚ) / (x.den : ℚ) < 1 := by
    rw [div_lt_one hdq]
    exact_mod_cast hrlt
  have habs := abs_lt.mp h
  unfold rhuN
  split
  · -- fractional part below one half: the floor is the nearest integer
    rename_i hlt
    have hl : (2 * (x.num % x.den : ℕ) : ℚ) < (x.den : ℚ) := by exact_mod_cast hlt
    have hfr : ((x.num % x.den : ℕ) : ℚ) / (x.den : ℚ) < 1 / 2 := by
      rw [div_lt_div_iff₀ hdq (by norm_num)]
      push_cast at hl ⊢
      linarith only [hl]
    -- f ≤ val < f + 1/2 and |val - n| < 1/2 force f = n
    have h1 : (f:ℚ) ≤ x.val := by
      rw [hsplit]
      linarith only [hfrac0]
    have h2 : x.val < (f:ℚ) + 1 / 2 := by
      rw [hsplit]
      linarith only [hfr]
    have hn1 : (n:ℚ) < (f:ℚ) + 1 := by linarith only [habs.1, h2]
    have hn2 : (f:ℚ) < (n:ℚ) + 1 / 2 := by linarith only [habs.2, h1]
    have hfn : f = n := by
      have c1 : n < f + 1 := by exact_mod_cast hn1
      have c2 : (f:ℚ) < (n:ℚ) + 1 := by linarith only [hn2]
      have c3 : f < n + 1 := by exact_mod_cast c2
      omega
    exact hfn
  · -- fractional part at least one half: the ceiling is the nearest integer
    rename_i hge
    push_neg at hge
    have hg : (x.den : ℚ) ≤ (2 * (x.num % x.den : ℕ) : ℚ) := by exact_mod_cast hge
    have hfr : (1:ℚ) / 2 ≤ ((x.num % x.den : ℕ) : ℚ) / (x.den : ℚ) := by
      rw [div_le_div_iff₀ (by norm_num) hdq]
      push_cast at hg ⊢
      linarith only [hg]
    have h1 : (f:ℚ) + 1 / 2 ≤ x.val := by
      rw [hsplit]
      linarith only [hfr]
    have h2 : x.val < (f:ℚ) + 1 := by
      rw [hsplit]
      linarith only [hfrac1]
    have hn1 : (f:ℚ) < (n:ℚ) + 1 / 2 := by linarith only [habs.2, h1]
    have hn2 : (n:ℚ) < (f:ℚ) + 3 / 2 := by linarith only [habs.1, h2]
    have hfn : n = f + 1 := by
      have c1 : (f:ℚ) < (n:ℚ) + 1 := by linarith only [hn1]
      have c2 : f < n + 1 := by exact_mod_cast c1
      have c3 : (n:ℚ) < (f:ℚ) + 2 := by linarith only [hn2]
      have c4 : n < f + 2 := by exact_mod_cast c3
      -- still need to exclude n = f: then val ≥ f + 1/2 contradicts |val - n| < 1/2
      rcases Nat.lt_or_ge n (f + 1) with hc | hc
      · exfalso
        have hnf : n ≤ f := by omega
        have hnfq : (n:ℚ) ≤ (f:ℚ) := by exact_mod_cast hnf
        linarith only [habs.2, h1, hnfq]
      · omega
    omega

end EvmConstants

namespace EvmConstants

open JsNum

theorem two_zpow_neg (k : ℕ) : (2:ℚ) ^ (-(k:ℤ)) = 1 / 2 ^ k := by
  rw [zpow_neg, zpow_natCast, one_div]

/-- In the range where the scaled amount keeps six exact fractional
digits through binary64 (`valueRaw < 2 ^ 32 * 10 ^ decimals`), the
rendered value of `formatTokenAmount` is exactly
`⌊valueRaw * 10 ^ 6 / 10 ^ decimals⌋ / 10 ^ 6`. -/
theorem formatTokenAmountVal_exact (value decimals : ℕ)
    (hd22 : decimals ≤ 22) (hlo : 10 ^ decimals ≤ value)
    (hhi : value < 2 ^ 32 * 10 ^ decimals) :
    formatTokenAmountVal value decimals
      = some ⟨value * 1000000 / 10 ^ decimals, 1000000⟩ := by
  have hp : 0 < (10:ℕ) ^ decimals := Nat.pos_pow_of_pos _ (by norm_num)
  unfold formatTokenAmountVal
  rw [jsPow10_eq decimals hd22]
  dsimp only
  rw [if_neg hp.ne']
  set n : ℕ := value * 1000000 / 10 ^ decimals with hn
  -- bounds on the scaled integer
  have hn1 : 1000000 ≤ n := by
    rw [hn]
    apply (Nat.le_div_iff_mul_le hp).2
    calc 1000000 * 10 ^ decimals ≤ 1000000 * value := Nat.mul_le_mul_left _ hlo
      _ = value * 1000000 := Nat.mul_comm _ _
  have hn2 : n < 2 ^ 32 * 1000000 := by
    rw [hn]
    apply Nat.div_lt_of_lt_mul
    calc value * 1000000 < (2 ^ 32 * 10 ^ decimals) * 1000000 :=
          (Nat.mul_lt_mul_right (by norm_num)).mpr hhi
      _ = 10 ^ decimals * (2 ^ 32 * 1000000) := by ring
  have hn52 : n < 2 ^ 52 := by
    have : (2:ℕ) ^ 32 * 1000000 < 2 ^ 52 := by norm_num
    omega
  have hn53 : n < 2 ^ 53 := by
    have : (2:ℕ) ^ 52 < 2 ^ 53 := by norm_num
    omega
  have npos : 0 < n := by omega
  have hnb : n < 2 ^ logFuel := by
    unfold logFuel
    have h1 : (2:ℕ) ^ 53 ≤ 2 ^ 4200 := Nat.pow_le_pow_right (by norm_num) (by norm_num)
    omega
  have hmb : (1000000:ℕ) < 2 ^ logFuel := by
    unfold logFuel
    have h1 : (1000000:ℕ) < 2 ^ 53 := by norm_num
    have h2 : (2:ℕ) ^ 53 ≤ 2 ^ 4200 := Nat.pow_le_pow_right (by norm_num) (by norm_num)
    omega
  obtain ⟨hanpos, hanle, hadle⟩ := roundF_int_bounds n npos hnb
  obtain ⟨hbnpos, hbnle, hbdle⟩ := roundF_int_bounds 1000000 (by norm_num) hmb
  have hadpos : 0 < (roundF ⟨n, 1⟩).den := roundF_den_pos _
  have hbdpos : 0 < (roundF ⟨1000000, 1⟩).den := roundF_den_pos _
  have hanum : (roundF ⟨n, 1⟩).num = n * (roundF ⟨n, 1⟩).den :=
    Frac.num_eq_of_val_nat _ n hadpos (roundF_int_exact n hn53)
  have hbnum : (roundF ⟨(1000000:ℕ), 1⟩).num = 1000000 * (roundF ⟨(1000000:ℕ), 1⟩).den :=
    Frac.num_eq_of_val_nat _ 1000000 hbdpos (roundF_int_exact 1000000 (by norm_num))
  set a := roundF ⟨n, 1⟩ with ha
  set b := roundF ⟨(1000000:ℕ), 1⟩ with hb
  have hy : fdivF (jsNumber n) (jsNumber 1000000)
      = roundF ⟨a.num * b.den, a.den * b.num⟩ := rfl
  set y : Frac := ⟨a.num * b.den, a.den * b.num⟩ with hydef
  have hynpos : 0 < y.num := Nat.mul_pos hanpos hbdpos
  have hydpos : 0 < y.den := Nat.mul_pos hadpos hbnpos
  have hyval : y.val = (n : ℚ) / (1000000 : ℚ) := by
    show ((a.num * b.den : ℕ) : ℚ) / ((a.den * b.num : ℕ) : ℚ)
        = (n : ℚ) / (1000000 : ℚ)
    rw [hanum, hbnum]
    have h1 : ((a.den : ℕ) : ℚ) ≠ 0 := by exact_mod_cast hadpos.ne'
    have h2 : ((b.den : ℕ) : ℚ) ≠ 0 := by exact_mod_cast hbdpos.ne'
    push_cast
    field_simp
    ring
  have hynb : y.num < 2 ^ logFuel := by
    have h1 : y.num ≤ (n * 2 ^ 52) * 2 ^ 52 := Nat.mul_le_mul hanle hbdle
    have hs : (0:ℕ) < 2 ^ 52 := Nat.pos_pow_of_pos _ (by norm_num)
    have h2 : n * 2 ^ 52 < 2 ^ 52 * 2 ^ 52 := (Nat.mul_lt_mul_right hs).mpr hn52
    have h3 : n * 2 ^ 52 * 2 ^ 52 < 2 ^ 52 * 2 ^ 52 * 2 ^ 52 :=
      (Nat.mul_lt_mul_right hs).mpr h2
    have h4 : (2:ℕ) ^ 52 * 2 ^ 52 * 2 ^ 52 = 2 ^ 156 := by norm_num [← pow_add]
    have h5 : (2:ℕ) ^ 156 < 2 ^ logFuel := by
      unfold logFuel
      exact Nat.pow_lt_pow_right (by norm_num) (by norm_num)
    omega
  have hydb : y.den < 2 ^ logFuel := by
    have h1 : y.den ≤ 2 ^ 52 * (1000000 * 2 ^ 52) := Nat.mul_le_mul hadle hbnle
    have h2 : (2:ℕ) ^ 52 * (1000000 * 2 ^ 52) < 2 ^ 125 := by norm_num [← pow_add]
    have h3 : (2:ℕ) ^ 125 < 2 ^ logFuel := by
      unfold logFuel
      exact Nat.pow_lt_pow_right (by norm_num) (by norm_num)
    omega
  rw [hy]
  -- the quotient sits below 2 ^ 32, so its ulp is at most 2 ^ (-22)
  have hspec := qexpF_spec y hynpos hydpos hynb hydb
  set e := qexpF y with he
  have hyvlt : y.val < (2:ℚ) ^ ((32:ℕ):ℤ) := by
    rw [hyval]
    rw [div_lt_iff₀ (by norm_num : (0:ℚ) < (1000000:ℚ))]
    rw [zpow_natCast]
    have hc : ((n:ℕ):ℚ) < ((2 ^ 32 * 1000000 : ℕ) : ℚ) := by exact_mod_cast hn2
    push_cast at hc
    linarith only [hc]
  have he31 : e ≤ 31 := by
    by_contra hcon
    push_neg at hcon
    have h1 : ((32:ℕ):ℤ) ≤ e := by omega
    have h2 : (2:ℚ) ^ ((32:ℕ):ℤ) ≤ (2:ℚ) ^ e :=
      zpow_le_zpow_right₀ (by norm_num) h1
    linarith only [hspec.1, h2, hyvlt]
  have herr := roundF_err y hynpos hydpos
  rw [← he] at herr
  have herr22 : |(roundF y).val - y.val| ≤ (2:ℚ) ^ (-(22:ℕ):ℤ) := by
    refine herr.trans (zpow_le_zpow_right₀ (by norm_num) (by omega))
  -- rendering recovers the integer n
  set x := roundF y with hx
  have hxdpos : 0 < x.den := roundF_den_pos y
  have hzval : (Frac.val ⟨x.num * 1000000, x.den⟩) = x.val * 1000000 := by
    unfold Frac.val
    push_cast
    ring
  have hclose : |(Frac.val ⟨x.num * 1000000, x.den⟩) - (n:ℚ)| < 1 / 2 := by
    rw [hzval]
    have hdiff : x.val * 1000000 - (n:ℚ) = (x.val - y.val) * 1000000 := by
      rw [hyval]
      field_simp
    rw [hdiff, abs_mul, abs_of_pos (by norm_num : (0:ℚ) < 1000000)]
    have h1 : |x.val - y.val| * 1000000 ≤ (2:ℚ) ^ (-(22:ℕ):ℤ) * 1000000 := by
      have := herr22
      gcongr
    have h3 : (2:ℚ) ^ (-(22:ℕ):ℤ) = 1 / 4194304 := by
      rw [two_zpow_neg]
      norm_num
    rw [h3] at h1
    linarith only [h1]
  have hren := rhuN_eq_of_close ⟨x.num * 1000000, x.den⟩ n hxdpos hclose
  rw [hren]

end EvmConstants

namespace Claims

open JsNum EvmConstants

/-- C5 (amended): `isLargeTransfer(valueRaw, decimals, isStablecoin)`
returns `true` iff `valueRaw / 10 ^ decimals ≥ 100000` (stablecoin)
resp. `≥ 1000000` (otherwise) — a value exactly at the threshold is
large — PROVIDED `valueRaw < 2 ^ 53` and `decimals ≤ 22`, the range in
which the bigint→binary64 conversions are exact.  (Outside it the
float rounding can misclassify: see the counterexample.) -/
theorem C5_isLargeTransfer_amended (value decimals : ℕ) (s : Bool)
    (hv53 : value < 2 ^ 53) (hd22 : decimals ≤ 22) :
    isLargeTransfer value decimals s = true
      ↔ (if s then 100000 else 1000000) * 10 ^ decimals ≤ value :=
  isLargeTransfer_exact_iff value decimals s hv53 hd22

/-- C5 witness: the amended equivalence instantiated at the spec's own
scenario 1 (`valueRaw = 250_000_000_000`, `decimals = 6`, stablecoin:
250 000 tokens, classified large). -/
theorem C5_witness :
    (250000000000 < 2 ^ 53 ∧ 6 ≤ 22)
      ∧ (isLargeTransfer 250000000000 6 true = true
          ↔ (if true then 100000 else 1000000) * 10 ^ 6 ≤ 250000000000) :=
  ⟨⟨by norm_num, by norm_num⟩,
    C5_isLargeTransfer_amended 250000000000 6 true (by norm_num) (by norm_num)⟩

/-- C5 counterexample: at `valueRaw = 10 ^ 23`, `decimals = 18`,
`isStablecoin = true` the scaled amount is exactly the stablecoin
threshold `100000`, so the claim requires `true`; but `Number(10n^23n)`
is a round-to-even tie that rounds DOWN to `2 ^ 53`-grid, the double
quotient is `100000 - 2⁻³⁶ < 100000`, and the code returns `false`. -/
theorem C5_counterexample :
    isLargeTransfer (10 ^ 23) 18 true = false
      ∧ (if true then 100000 else 1000000) * 10 ^ 18 ≤ 10 ^ 23 :=
  ⟨by decide, by norm_num⟩

/-- C6 (amended): for `10 ^ decimals ≤ valueRaw < 2 ^ 32 * 10 ^ decimals`
(and `decimals ≤ 22`), the numeric value rendered by
`formatTokenAmount` is within `±10⁻⁶` of `valueRaw / 10 ^ decimals`.
(For larger `valueRaw` the binary64 conversion loses far more than
`10⁻⁶`: see the counterexample.) -/
theorem C6_formatTokenAmount_amended (value decimals : ℕ)
    (hd22 : decimals ≤ 22) (hlo : 10 ^ decimals ≤ value)
    (hhi : value < 2 ^ 32 * 10 ^ decimals) :
    ∀ r : Frac, formatTokenAmountVal value decimals = some r →
      |r.val - (value : ℚ) / (10:ℚ) ^ decimals| ≤ 1 / 1000000 := by
  intro r hr
  rw [formatTokenAmountVal_exact value decimals hd22 hlo hhi] at hr
  have hreq : r = ⟨value * 1000000 / 10 ^ decimals, 1000000⟩ := by
    injection hr with h
    exact h.symm
  subst hreq
  have hp : 0 < (10:ℕ) ^ decimals := Nat.pos_pow_of_pos _ (by norm_num)
  have hpq : (0:ℚ) < (10:ℚ) ^ decimals := by positivity
  have hsplit := Nat.div_add_mod (value * 1000000) (10 ^ decimals)
  set q : ℕ := value * 1000000 / 10 ^ decimals with hq
  set rem : ℕ := value * 1000000 % 10 ^ decimals with hrem
  have hremlt : rem < 10 ^ decimals := Nat.mod_lt _ hp
  have hsplitQ : (value:ℚ) * 1000000 = (10:ℚ) ^ decimals * (q:ℚ) + (rem:ℚ) := by
    have hc : ((10 ^ decimals * q + rem : ℕ) : ℚ) = ((value * 1000000 : ℕ) : ℚ) := by
      exact_mod_cast congrArg (fun m : ℕ => (m : ℚ)) hsplit
    push_cast at hc
    linarith only [hc]
  have hvalr : (Frac.val ⟨q, 1000000⟩) = (q:ℚ) / 1000000 := rfl
  rw [hvalr, abs_le]
  have hrq : (rem:ℚ) < (10:ℚ) ^ decimals := by exact_mod_cast hremlt
  constructor
  · -- the truncation loses strictly less than 10 ^ (-6)
    have h1 : (value:ℚ) / (10:ℚ) ^ decimals ≤ ((q:ℚ) + 1) / 1000000 := by
      rw [div_le_div_iff₀ hpq (by norm_num : (0:ℚ) < 1000000)]
      linarith only [hsplitQ, hrq]
    linarith only [h1]
  · -- the rendered value never exceeds the true one
    have h2 : (q:ℚ) / 1000000 ≤ (value:ℚ) / (10:ℚ) ^ decimals := by
      rw [div_le_div_iff₀ (by norm_num : (0:ℚ) < 1000000) hpq]
      have hr0 : (0:ℚ) ≤ (rem:ℚ) := by positivity
      linarith only [hsplitQ, hr0]
    linarith only [h2]

/-- C6 witness: the amended bound instantiated at the spec's scenario 1
(`valueRaw = 250_000_000_000`, `decimals = 6`), whose rendered value is
exactly `250000.000000`. -/
theorem C6_witness :
    (6 ≤ 22 ∧ 10 ^ 6 ≤ 250000000000 ∧ 250000000000 < 2 ^ 32 * 10 ^ 6)
      ∧ |(Frac.val ⟨250000000000, 1000000⟩)
          - (250000000000 : ℚ) / (10:ℚ) ^ 6| ≤ 1 / 1000000 :=
  ⟨⟨by norm_num, by norm_num, by norm_num⟩,
    C6_formatTokenAmount_amended 250000000000 6 (by norm_num) (by norm_num)
      (by norm_num) ⟨250000000000, 1000000⟩ (by decide)⟩

/-- C6 counterexample: at `valueRaw = 10 ^ 30`, `decimals = 6` (which
satisfies the claim's only precondition `valueRaw ≥ 10 ^ decimals`),
the binary64 conversion of the scaled integer `10 ^ 30` is off by
`2 ^ 24 · 10 ^ 6`, so the rendered value differs from
`valueRaw / 10 ^ decimals = 10 ^ 24` by `16 777 216`, far beyond the
claimed `±10⁻⁶`. -/
theorem C6_counterexample :
    10 ^ 6 ≤ (10:ℕ) ^ 30
      ∧ ¬ (∀ r : Frac, formatTokenAmountVal (10 ^ 30) 6 = some r →
            |r.val - ((10 ^ 30 : ℕ) : ℚ) / (10:ℚ) ^ 6| ≤ 1 / 1000000) := by
  refine ⟨by norm_num, fun h => ?_⟩
  have h2 := h ⟨999999999999999983222784000000, 1000000⟩ (by decide)
  simp only [Frac.val] at h2
  norm_num at h2

end Claims

namespace Claims

open JsNum EvmConstants

/-- C10: `formatTokenAmount` is total — when the amount string does not
parse as a bigint, or the divisor computation `BigInt(10 ** decimals)`
fails (negative or oversized exponent), the `catch` returns the input
string unchanged and no exception escapes. -/
theorem C10_formatTokenAmount_total (amount : String) (decimals : ℤ) :
    (jsBigIntOfString amount = none → formatTokenAmount amount decimals = amount)
      ∧ (decimals < 0 ∨ 308 < decimals → formatTokenAmount amount decimals = amount) := by
  constructor
  · intro h
    unfold formatTokenAmount
    rw [h]
  · intro h
    unfold formatTokenAmount
    cases hparse : jsBigIntOfString amount with
    | none => rfl
    | some v =>
        have hz : jsPow10Z decimals = none := by
          unfold jsPow10Z
          rcases h with h | h
          · rw [if_neg (by omega : ¬ (0:ℤ) ≤ decimals)]
          · rw [if_pos (by omega : (0:ℤ) ≤ decimals)]
            unfold jsPow10BigInt
            rw [if_neg (by omega : ¬ decimals.toNat ≤ 308)]
        rw [hz]

/-- C10 witness: a non-numeric amount and a negative `decimals` both
fall back to the input string. -/
theorem C10_witness :
    (jsBigIntOfString "abc" = none ∧ formatTokenAmount "abc" 18 = "abc")
      ∧ (((-1:ℤ) < 0 ∨ 308 < (-1:ℤ)) ∧ formatTokenAmount "5" (-1) = "5") :=
  ⟨⟨by decide, (C10_formatTokenAmount_total "abc" 18).1 (by decide)⟩,
    ⟨Or.inl (by norm_num), (C10_formatTokenAmount_total "5" (-1)).2 (Or.inl (by norm_num))⟩⟩

end Claims

namespace Claims

open Model

/-- C9 (amended): `canHandle(ev)` returns `true` iff `ev.eventType` is
`contract_log` AND `ev.contractAddress` is non-empty (JS truthiness of
`!!event.contractAddress`) AND the first topic equals the canonical
`Transfer` topic-0 hash.  The claim as stated omits the
`contractAddress` conjunct: see the counterexample. -/
theorem C9_canHandle_amended (ev : BlockchainEvent) :
    canHandle ev = true
      ↔ ev.eventType = "contract_log" ∧ ev.contractAddress ≠ ""
          ∧ ev.data.topics.head? = some TRANSFER_EVENT_SIGNATURE := by
  unfold canHandle isTransferEvent
  simp [Bool.and_eq_true, beq_iff_eq, bne_iff_ne, decide_eq_true_eq, and_assoc]

end Claims

namespace Claims

open Model

/-- C9 counterexample: an event with `eventType = contract_log` and the
canonical `Transfer` first topic, but an empty `contractAddress`.  The
claim ("true iff eventType and topic-0 match") requires `true`;
`canHandle` returns `false`. -/
theorem C9_counterexample :
    canHandle emptyAddressTransferEvent = false
      ∧ emptyAddressTransferEvent.eventType = "contract_log"
      ∧ emptyAddressTransferEvent.data.topics.head? = some TRANSFER_EVENT_SIGNATURE :=
  ⟨by decide, rfl, rfl⟩

end Claims

namespace Claims

open Model

/-- C3: persisting a Transfer event is idempotent — a pre-insert check
on `(chainId, transactionHash, logIndex)` skips existing records, a
duplicate-key insert error is silently skipped, any other store failure
leaves the store unchanged (logged, non-fatal), and a second persist of
the same log is a no-op on the store. -/
theorem C3_saveEvent_idempotent (store : EventStore) (ev : BlockchainEvent)
    (td : TransferData) (fault : Option StoreErr) :
    (hasKey store (ev.chainId, ev.transactionHash, ev.data.logIndex) = true →
        saveEvent store ev td fault = store)
      ∧ (∀ e, fault = some e → saveEvent store ev td fault = store)
      ∧ (∀ td' fault', saveEvent (saveEvent store ev td none) ev td' fault'
          = saveEvent store ev td none) := by
  refine ⟨?_, ?_, ?_⟩
  · intro h
    unfold saveEvent
    rw [if_pos h]
  · intro e he
    unfold saveEvent
    subst he
    split
    · rfl
    · cases e <;> rfl
  · intro td' fault'
    by_cases h : hasKey store (ev.chainId, ev.transactionHash, ev.data.logIndex) = true
    · have h1 : saveEvent store ev td none = store := by
        unfold saveEvent
        rw [if_pos h]
      rw [h1]
      unfold saveEvent
      rw [if_pos h]
    · have hfalse : hasKey store (ev.chainId, ev.transactionHash, ev.data.logIndex) = false :=
        Bool.not_eq_true _ ▸ Bool.eq_false_iff.mpr (fun hc => h hc)
      have hkeyeq : eventKey (buildSavedEvent ev td)
          = (ev.chainId, ev.transactionHash, ev.data.logIndex) := rfl
      have h1 : saveEvent store ev td none = store ++ [buildSavedEvent ev td] := by
        unfold saveEvent
        rw [if_neg (by rw [hfalse]; exact Bool.false_ne_true)]
        unfold insertEvent
        rw [hkeyeq, if_neg (by rw [hfalse]; exact Bool.false_ne_true)]
      rw [h1]
      have h2 : hasKey (store ++ [buildSavedEvent ev td])
          (ev.chainId, ev.transactionHash, ev.data.logIndex) = true := by
        unfold hasKey
        rw [List.any_append]
        have h3 : List.any [buildSavedEvent ev td]
            (fun d => eventKey d = (ev.chainId, ev.transactionHash, ev.data.logIndex))
            = true := by
          simp [hkeyeq]
        rw [h3, Bool.or_true]
      unfold saveEvent
      rw [if_pos h2]

end Claims

namespace Claims

open Model

/-- C3 witness: on explicit inputs — a store already holding the
document, an injected fault, and a replay after a successful insert —
each branch of the idempotence theorem is exercised. -/
theorem C3_witness :
    (saveEvent [buildSavedEvent sampleTransferEvent sampleTransferData]
        sampleTransferEvent sampleTransferData none
        = [buildSavedEvent sampleTransferEvent sampleTransferData])
      ∧ (saveEvent [] sampleTransferEvent sampleTransferData (some .duplicateKey) = [])
      ∧ (saveEvent (saveEvent [] sampleTransferEvent sampleTransferData none)
            sampleTransferEvent sampleTransferData none
          = saveEvent [] sampleTransferEvent sampleTransferData none) :=
  ⟨(C3_saveEvent_idempotent [buildSavedEvent sampleTransferEvent sampleTransferData]
      sampleTransferEvent sampleTransferData none).1 (by decide),
    (C3_saveEvent_idempotent [] sampleTransferEvent sampleTransferData
      (some .duplicateKey)).2.1 .duplicateKey rfl,
    (C3_saveEvent_idempotent [] sampleTransferEvent sampleTransferData none).2.2
      sampleTransferData none⟩

end Claims

namespace Claims

open Model

/-- C4: on an existing record the handler sets `lastProcessedBlock` to
`max(current, ev.blockNumber)` (in particular an event with a lower
block number leaves it unchanged), and across any sequence of handler
invocations `lastProcessedBlock` is monotonically non-decreasing. -/
theorem C4_lastProcessedBlock_monotone :
    (∀ (cd : ContractData) (ev : BlockchainEvent) (td : TransferData),
        (updateContractMetadata (some cd) ev td).lastProcessedBlock
          = some (max (cd.lastProcessedBlock.getD 0) ev.blockNumber))
      ∧ (∀ (evs : List (BlockchainEvent × TransferData)) (st : Option ContractData),
          lpbVal st ≤ lpbVal (evs.foldl handlerStep st)) := by
  have hstep : ∀ (cd : ContractData) (ev : BlockchainEvent) (td : TransferData),
      (updateContractMetadata (some cd) ev td).lastProcessedBlock
        = some (max (cd.lastProcessedBlock.getD 0) ev.blockNumber) := by
    intro cd ev td
    unfold updateContractMetadata updateLastProcessedBlock setFirstSeenBlock optFalsy
    cases hl : cd.lastProcessedBlock with
    | none =>
        simp only [Option.getD]
        split <;> split <;> simp_all <;> omega
    | some n =>
        simp only [Option.getD]
        rcases Nat.eq_zero_or_pos n with h0 | hpos
        · subst h0
          split <;> split <;> simp_all <;> omega
        · split <;> split <;> simp_all <;> omega
  have hmono : ∀ (st : Option ContractData) (p : BlockchainEvent × TransferData),
      lpbVal st ≤ lpbVal (handlerStep st p) := by
    intro st p
    cases st with
    | none => exact Nat.zero_le _
    | some cd =>
        unfold handlerStep lpbVal
        dsimp only
        rw [hstep cd p.1 p.2]
        simp only [Option.getD]
        omega
  refine ⟨hstep, ?_⟩
  intro evs
  induction evs with
  | nil => intro st; exact Nat.le_refl _
  | cons p rest ih =>
      intro st
      calc lpbVal st ≤ lpbVal (handlerStep st p) := hmono st p
        _ ≤ lpbVal ((p :: rest).foldl handlerStep st) := by
            rw [List.foldl_cons]
            exact ih (handlerStep st p)

end Claims

namespace Dispatcher

open Model

theorem inv_initial (hs : List Handler) : Inv (initialState hs) :=
  ⟨rfl, rfl, fun _ => ⟨rfl, rfl⟩⟩

theorem step_dispatch (s : DispatcherState) (ev : BlockchainEvent) :
    step s (.dispatch ev) =
      if s.isProcessing then
        { s with queue := s.queue ++ [ev], arrivals := s.arrivals ++ [ev] }
      else
        beginEvent
          { s with
            queue := s.queue ++ [ev]
            arrivals := s.arrivals ++ [ev]
            isProcessing := true
            activeWorkers := s.activeWorkers + 1 } := rfl

theorem step_complete_none (s : DispatcherState) (h : s.current = none) :
    step s .complete = s := by
  obtain ⟨f1, f2, f3, f4, f5, f6, f7, f8⟩ := s
  simp only at h
  subst h
  rfl

theorem step_complete_some (s : DispatcherState) (e : BlockchainEvent)
    (h : s.current = some e) :
    step s .complete = beginEvent { s with current := none } := by
  obtain ⟨f1, f2, f3, f4, f5, f6, f7, f8⟩ := s
  simp only at h
  subst h
  rfl

theorem beginEvent_nil (s : DispatcherState) (h : s.queue = []) :
    beginEvent s =
      { s with
        isProcessing := false
        current := none
        activeWorkers := s.activeWorkers - 1 } := by
  obtain ⟨f1, f2, f3, f4, f5, f6, f7, f8⟩ := s
  simp only at h
  subst h
  rfl

theorem beginEvent_cons (s : DispatcherState) (ev : BlockchainEvent)
    (rest : List BlockchainEvent) (h : s.queue = ev :: rest) :
    beginEvent s =
      { s with
        queue := rest
        current := some ev
        invoked := s.invoked ++ [ev]
        errorLog := s.errorLog ++ errorsOf (processEvent s.handlers ev) } := by
  obtain ⟨f1, f2, f3, f4, f5, f6, f7, f8⟩ := s
  simp only at h
  subst h
  rfl

theorem inv_step (s : DispatcherState) (d : DStep) (h : Inv s) : Inv (step s d) := by
  obtain ⟨h1, h2, h3⟩ := h
  cases d with
  | dispatch ev =>
      rw [step_dispatch]
      by_cases hp : s.isProcessing
      · rw [if_pos hp]
        refine ⟨by simp [h1], by simpa [hp] using h2, ?_⟩
        intro hf
        simp only at hf
        rw [hp] at hf
        exact absurd hf (by simp)
      · have hpf : s.isProcessing = false := by simpa using hp
        have hq : s.queue = [] := (h3 hpf).1
        rw [if_neg hp, beginEvent_cons _ ev [] (by simp [hq])]
        refine ⟨by simp [h1, hq], ?_, ?_⟩
        · have h2' : s.activeWorkers = 0 := by simpa [hpf] using h2
          simp [h2']
        · intro hf
          simp only at hf
          exact absurd hf (by simp)
  | complete =>
      cases hc : s.current with
      | none => rw [step_complete_none s hc]; exact ⟨h1, h2, h3⟩
      | some e =>
          have hp : s.isProcessing = true := by
            by_contra hpf
            have h4 := (h3 (by simpa using hpf)).2
            rw [hc] at h4
            exact Option.some_ne_none _ h4
          rw [step_complete_some s e hc]
          cases hq : s.queue with
          | nil =>
              rw [beginEvent_nil _ (by simp [hq])]
              refine ⟨by simp [h1, hq], ?_, fun _ => ⟨by simp [hq], rfl⟩⟩
              have h2' : s.activeWorkers = 1 := by simpa [hp] using h2
              simp [h2']
          | cons ev rest =>
              rw [beginEvent_cons _ ev rest (by simp [hq])]
              refine ⟨by simp [h1, hq], by simpa using h2, ?_⟩
              intro hf
              simp only at hf
              rw [hp] at hf
              exact absurd hf (by simp)

theorem inv_run (hs : List Handler) (l : List DStep) : Inv (run (initialState hs) l) := by
  suffices hgen : ∀ (l : List DStep) (s : DispatcherState), Inv s → Inv (run s l) from
    hgen l (initialState hs) (inv_initial hs)
  intro l
  induction l with
  | nil => intro s h; exact h
  | cons d rest ih =>
      intro s h
      exact ih (step s d) (inv_step s d h)

theorem beginEvent_handlers (s : DispatcherState) :
    (beginEvent s).handlers = s.handlers := by
  cases hq : s.queue with
  | nil => rw [beginEvent_nil s hq]
  | cons e r => rw [beginEvent_cons s e r hq]

theorem step_handlers (s : DispatcherState) (d : DStep) :
    (step s d).handlers = s.handlers := by
  cases d with
  | dispatch ev =>
      rw [step_dispatch]
      by_cases hp : s.isProcessing
      · rw [if_pos hp]
      · rw [if_neg hp, beginEvent_handlers]
  | complete =>
      cases hc : s.current with
      | none => rw [step_complete_none s hc]
      | some e => rw [step_complete_some s e hc, beginEvent_handlers]

theorem run_handlers_const (s : DispatcherState) (l : List DStep) :
    (run s l).handlers = s.handlers := by
  induction l generalizing s with
  | nil => rfl
  | cons d rest ih =>
      calc (run s (d :: rest)).handlers = (run (step s d) rest).handlers := rfl
        _ = (step s d).handlers := ih (step s d)
        _ = s.handlers := step_handlers s d

theorem beginEvent_arrivals (s : DispatcherState) :
    (beginEvent s).arrivals = s.arrivals := by
  cases hq : s.queue with
  | nil => rw [beginEvent_nil s hq]
  | cons e r => rw [beginEvent_cons s e r hq]

end Dispatcher

namespace Claims

open Model Dispatcher

/-- C7: the dispatcher is cooperative single-worker with strict FIFO
semantics.  In every reachable state: the arrival order is exactly the
invocation order followed by the pending queue (so handlers observe
events in exact enqueue order), at most one drain loop is active,
`dispatchEvent` always appends the new event to the arrival order, and
when a worker is already active a dispatch does nothing but append to
the queue. -/
theorem C7_fifo_single_worker (hs : List Handler) (l : List DStep)
    (ev : BlockchainEvent) :
    (run (initialState hs) l).arrivals
        = (run (initialState hs) l).invoked ++ (run (initialState hs) l).queue
    ∧ (run (initialState hs) l).activeWorkers ≤ 1
    ∧ (step (run (initialState hs) l) (.dispatch ev)).arrivals
        = (run (initialState hs) l).arrivals ++ [ev]
    ∧ ((run (initialState hs) l).isProcessing = true →
        step (run (initialState hs) l) (.dispatch ev)
          = { run (initialState hs) l with
              queue := (run (initialState hs) l).queue ++ [ev]
              arrivals := (run (initialState hs) l).arrivals ++ [ev] }) := by
  obtain ⟨h1, h2, h3⟩ := inv_run hs l
  refine ⟨h1, ?_, ?_, ?_⟩
  · rw [h2]; split <;> simp
  · rw [step_dispatch]
    by_cases hp : (run (initialState hs) l).isProcessing
    · rw [if_pos hp]
    · rw [if_neg hp, beginEvent_arrivals]
  · intro hp
    rw [step_dispatch, if_pos hp]

theorem C7_witness :
    (run (initialState []) [DStep.dispatch Model.sampleTransferEvent]).arrivals
        = (run (initialState []) [DStep.dispatch Model.sampleTransferEvent]).invoked
          ++ (run (initialState []) [DStep.dispatch Model.sampleTransferEvent]).queue
    ∧ (run (initialState []) [DStep.dispatch Model.sampleTransferEvent]).activeWorkers ≤ 1
    ∧ (step (run (initialState []) [DStep.dispatch Model.sampleTransferEvent])
          (.dispatch Model.sampleTransferEvent)).arrivals
        = (run (initialState []) [DStep.dispatch Model.sampleTransferEvent]).arrivals
          ++ [Model.sampleTransferEvent]
    ∧ step (run (initialState []) [DStep.dispatch Model.sampleTransferEvent])
          (.dispatch Model.sampleTransferEvent)
        = { run (initialState []) [DStep.dispatch Model.sampleTransferEvent] with
            queue := (run (initialState []) [DStep.dispatch Model.sampleTransferEvent]).queue
              ++ [Model.sampleTransferEvent]
            arrivals := (run (initialState [])
                [DStep.dispatch Model.sampleTransferEvent]).arrivals
              ++ [Model.sampleTransferEvent] } :=
  ⟨(C7_fifo_single_worker [] [DStep.dispatch Model.sampleTransferEvent]
      Model.sampleTransferEvent).1,
   (C7_fifo_single_worker [] [DStep.dispatch Model.sampleTransferEvent]
      Model.sampleTransferEvent).2.1,
   (C7_fifo_single_worker [] [DStep.dispatch Model.sampleTransferEvent]
      Model.sampleTransferEvent).2.2.1,
   (C7_fifo_single_worker [] [DStep.dispatch Model.sampleTransferEvent]
      Model.sampleTransferEvent).2.2.2 rfl⟩

/-- C8: a handler failure is logged and swallowed.  If an eligible
handler of a drained event throws, its error appears in the error log
entries for that event, every eligible handler still gets an outcome
(the outcome list covers exactly the eligible handlers), and the drain
loop still pops the next queued event with the registered handler list
unchanged. -/
theorem C8_handler_failure_swallowed (hs : List Handler) (ev : BlockchainEvent)
    (h : Handler) (e : String) (hmem : h ∈ hs) (helig : h.canH ev = true)
    (herr : h.handle ev = Except.error e)
    (s : DispatcherState) (ev2 : BlockchainEvent) (rest : List BlockchainEvent)
    (hc : s.current = some ev) (hq : s.queue = ev2 :: rest) :
    (h.name ++ ": " ++ e) ∈ errorsOf (processEvent hs ev)
    ∧ (processEvent hs ev).map Prod.fst
        = (hs.filter (fun g => g.canH ev)).map Handler.name
    ∧ (step s .complete).current = some ev2
    ∧ (step s .complete).invoked = s.invoked ++ [ev2]
    ∧ (step s .complete).handlers = s.handlers := by
  have hfil : h ∈ hs.filter (fun g => g.canH ev) := List.mem_filter.mpr ⟨hmem, helig⟩
  have hout : (h.name, h.handle ev) ∈ processEvent hs ev := List.mem_map_of_mem _ hfil
  refine ⟨?_, ?_, ?_⟩
  · exact List.mem_filterMap.mpr ⟨(h.name, h.handle ev), hout, by simp [herr]⟩
  · simp [processEvent, List.map_map, Function.comp]
  · rw [step_complete_some s ev hc, beginEvent_cons _ ev2 rest (by simp [hq])]
    exact ⟨rfl, rfl, rfl⟩

theorem C8_witness :
    (Dispatcher.failingHandler.name ++ ": " ++ "boom")
        ∈ errorsOf (processEvent [Dispatcher.failingHandler, Dispatcher.okHandler]
            Model.sampleTransferEvent)
    ∧ (processEvent [Dispatcher.failingHandler, Dispatcher.okHandler]
          Model.sampleTransferEvent).map Prod.fst
        = ([Dispatcher.failingHandler, Dispatcher.okHandler].filter
            (fun g => g.canH Model.sampleTransferEvent)).map Handler.name
    ∧ (step (run (initialState [Dispatcher.failingHandler, Dispatcher.okHandler])
          [DStep.dispatch Model.sampleTransferEvent,
           DStep.dispatch Model.emptyAddressTransferEvent]) .complete).current
        = some Model.emptyAddressTransferEvent
    ∧ (step (run (initialState [Dispatcher.failingHandler, Dispatcher.okHandler])
          [DStep.dispatch Model.sampleTransferEvent,
           DStep.dispatch Model.emptyAddressTransferEvent]) .complete).invoked
        = (run (initialState [Dispatcher.failingHandler, Dispatcher.okHandler])
            [DStep.dispatch Model.sampleTransferEvent,
             DStep.dispatch Model.emptyAddressTransferEvent]).invoked
          ++ [Model.emptyAddressTransferEvent]
    ∧ (step (run (initialState [Dispatcher.failingHandler, Dispatcher.okHandler])
          [DStep.dispatch Model.sampleTransferEvent,
           DStep.dispatch Model.emptyAddressTransferEvent]) .complete).handlers
        = (run (initialState [Dispatcher.failingHandler, Dispatcher.okHandler])
            [DStep.dispatch Model.sampleTransferEvent,
             DStep.dispatch Model.emptyAddressTransferEvent]).handlers :=
  C8_handler_failure_swallowed
    [Dispatcher.failingHandler, Dispatcher.okHandler] Model.sampleTransferEvent
    Dispatcher.failingHandler "boom" (List.mem_cons_self _ _) rfl rfl
    (run (initialState [Dispatcher.failingHandler, Dispatcher.okHandler])
        [DStep.dispatch Model.sampleTransferEvent,
         DStep.dispatch Model.emptyAddressTransferEvent])
    Model.emptyAddressTransferEvent [] rfl rfl

end Claims

namespace Listener

open Model

theorem listChunksAux_flatten {α : Type} (k : ℕ) (hk : 0 < k) :
    ∀ (fuel : ℕ) (l : List α), l.length ≤ fuel →
      (EvmConstants.listChunksAux fuel k l).flatten = l := by
  intro fuel
  induction fuel with
  | zero =>
      intro l hl
      rw [List.length_eq_zero.mp (Nat.le_zero.mp hl)]
      rfl
  | succ n ih =>
      intro l hl
      cases l with
      | nil => rfl
      | cons a rest =>
          show ((a :: rest).take k :: EvmConstants.listChunksAux n k ((a :: rest).drop k)).flatten
              = a :: rest
          rw [List.flatten_cons, ih ((a :: rest).drop k) ?_, List.take_append_drop]
          rw [List.length_drop]
          simp only [List.length_cons] at hl ⊢
          omega

theorem listChunks_flatten {α : Type} (k : ℕ) (hk : 0 < k) (l : List α) :
    (EvmConstants.listChunks k l).flatten = l :=
  listChunksAux_flatten k hk l.length l le_rfl

theorem flatten_map_flatten {α β : Type} (f : α → List β) :
    ∀ (chunks : List (List α)),
      (chunks.map (fun b => (b.map f).flatten)).flatten = (chunks.flatten.map f).flatten := by
  intro chunks
  induction chunks with
  | nil => rfl
  | cons b rest ih =>
      simp only [List.map_cons, List.flatten_cons, List.map_append, List.flatten_append, ih]

theorem batched_flatten {α β : Type} (k : ℕ) (hk : 0 < k) (l : List α) (f : α → List β) :
    ((EvmConstants.listChunks k l).map (fun b => (b.map f).flatten)).flatten
      = (l.map f).flatten := by
  rw [flatten_map_flatten, listChunks_flatten k hk]

theorem contractEvents_eq (ch : Chain) (a b : ℕ) (c : ContractConfig) :
    contractEvents ch a b c
      = ((getEventNamesFromConfig c).map (queryContractEvent ch c a b)).flatten :=
  batched_flatten 2 (by norm_num) _ _

theorem getAllContractEventsUnsorted_eq (ch : Chain) (configs : List ContractConfig)
    (batchSize a b : ℕ) (hbs : 0 < batchSize) :
    getAllContractEventsUnsorted ch configs batchSize a b
      = (configs.map (fun c =>
          ((getEventNamesFromConfig c).map (queryContractEvent ch c a b)).flatten)).flatten := by
  unfold getAllContractEventsUnsorted
  rw [batched_flatten batchSize hbs]
  congr 1
  exact List.map_congr_left (fun c _ => contractEvents_eq ch a b c)

theorem eventKeyL_build (chainId : ℕ) (e : ScanEvent) (g st : ℕ) :
    eventKeyL (buildBlockchainEvent chainId e g st) = scanKey e := rfl

theorem scanKey_withTimestamp (ch : Chain) (e : ScanEvent) :
    scanKey (withTimestamp ch e) = scanKey e := rfl

theorem processEventsLoop_stopped (ch : Chain) (chainId : ℕ) (runningAt : ℕ → Bool)
    (i : ℕ) (l : List ScanEvent) (h : runningAt i = false) :
    processEventsLoop ch chainId runningAt i l = [] := by
  cases l with
  | nil => rfl
  | cons e rest => simp [processEventsLoop, h]

theorem processEventsLoop_all (ch : Chain) (chainId : ℕ) (runningAt : ℕ → Bool)
    (hrun : ∀ i, runningAt i = true) :
    ∀ (l : List ScanEvent) (i : ℕ),
      (∀ e ∈ l, (ch.receipt e.transactionHash).isSome = true) →
      (processEventsLoop ch chainId runningAt i l).map eventKeyL = l.map scanKey := by
  intro l
  induction l with
  | nil => intro i _; rfl
  | cons e rest ih =>
      intro i hrec
      have hre : (ch.receipt e.transactionHash).isSome = true :=
        hrec e (List.mem_cons_self e rest)
      obtain ⟨⟨g, st⟩, hp⟩ := Option.isSome_iff_exists.mp hre
      show (processEventsLoop ch chainId runningAt i (e :: rest)).map eventKeyL
          = scanKey e :: rest.map scanKey
      rw [processEventsLoop, hrun i, if_pos rfl]
      unfold processContractEvent
      rw [hp]
      show eventKeyL (buildBlockchainEvent chainId e g st)
          :: (processEventsLoop ch chainId runningAt (i + 1) rest).map eventKeyL
          = scanKey e :: rest.map scanKey
      rw [eventKeyL_build, ih (i + 1) (fun x hx => hrec x (List.mem_cons_of_mem e hx))]

end Listener

namespace Claims

open Model Listener

/-- C1 (amended): on a pull-listener tick over `[a, b]` in which the
listener stays running and every transaction receipt is available, the
multiset of enqueued events (identified by
`(blockNumber, logIndex, transactionHash)`) equals the multiset of
logs returned by upstream for the monitored `(contract, topic-0)`
filters over `[a, b]`, the events are enqueued in ascending
`(blockNumber, logIndex)` order, and the upstream collection is
exactly the concatenation of the per-contract, per-event-name
`queryFilter` results.  Without the receipt hypothesis the original
claim is false: `processContractEvent` silently drops a log whose
receipt lookup returns `null` (see the counterexample). -/
theorem C1_tick_enqueues_upstream_amended (ch : Chain)
    (configs : List ContractConfig) (batchSize chainId a b : ℕ)
    (runningAt : ℕ → Bool) (hbs : 0 < batchSize)
    (hrun : ∀ i, runningAt i = true)
    (hrec : ∀ e ∈ getAllContractEventsUnsorted ch configs batchSize a b,
        (ch.receipt e.transactionHash).isSome = true) :
    List.Perm
      ((processBlockRangeWithBatching ch configs batchSize runningAt chainId a b).map
        eventKeyL)
      ((getAllContractEventsUnsorted ch configs batchSize a b).map scanKey)
    ∧ (processBlockRangeWithBatching ch configs batchSize runningAt chainId a b).Pairwise
        (fun x y => x.blockNumber < y.blockNumber
          ∨ (x.blockNumber = y.blockNumber ∧ x.data.logIndex ≤ y.data.logIndex))
    ∧ getAllContractEventsUnsorted ch configs batchSize a b
        = (configs.map (fun c =>
            ((getEventNamesFromConfig c).map (queryContractEvent ch c a b)).flatten)).flatten := by
  by_cases hcfg : configs.isEmpty
  · rw [List.isEmpty_iff.mp hcfg]
    exact ⟨List.Perm.refl _, by simp [processBlockRangeWithBatching], rfl⟩
  · have henq : processBlockRangeWithBatching ch configs batchSize runningAt chainId a b
        = processEventsLoop ch chainId runningAt 0
            (getAllContractEventsInRange ch configs batchSize a b) := by
      unfold processBlockRangeWithBatching
      rw [if_neg (by simpa using hcfg)]
    have hrec' : ∀ e ∈ getAllContractEventsInRange ch configs batchSize a b,
        (ch.receipt e.transactionHash).isSome = true := by
      intro e he
      obtain ⟨e', he', rfl⟩ := List.mem_map.mp he
      exact hrec e'
        ((List.perm_insertionSort scanLe _).mem_iff.mp he')
    have hkeys : (processBlockRangeWithBatching ch configs batchSize runningAt chainId a b).map
        eventKeyL
        = (getAllContractEventsInRange ch configs batchSize a b).map scanKey := by
      rw [henq]
      exact processEventsLoop_all ch chainId runningAt hrun _ 0 hrec'
    have hkeys2 : (getAllContractEventsInRange ch configs batchSize a b).map scanKey
        = (List.insertionSort scanLe
            (getAllContractEventsUnsorted ch configs batchSize a b)).map scanKey := by
      unfold getAllContractEventsInRange
      rw [List.map_map]
      exact List.map_congr_left (fun e _ => scanKey_withTimestamp ch e)
    refine ⟨?_, ?_, getAllContractEventsUnsorted_eq ch configs batchSize a b hbs⟩
    · rw [hkeys, hkeys2]
      exact (List.perm_insertionSort scanLe _).map scanKey
    · have hsorted : (List.insertionSort scanLe
          (getAllContractEventsUnsorted ch configs batchSize a b)).Pairwise scanLe :=
        List.sorted_insertionSort scanLe _
      have hkpair : ((List.insertionSort scanLe
          (getAllContractEventsUnsorted ch configs batchSize a b)).map scanKey).Pairwise
            (fun p q => p.1 < q.1 ∨ (p.1 = q.1 ∧ p.2.1 ≤ q.2.1)) :=
        List.pairwise_map.mpr hsorted
      have henqpair : ((processBlockRangeWithBatching ch configs batchSize runningAt
          chainId a b).map eventKeyL).Pairwise
            (fun p q => p.1 < q.1 ∨ (p.1 = q.1 ∧ p.2.1 ≤ q.2.1)) := by
        rw [hkeys, hkeys2]
        exact hkpair
      exact List.pairwise_map.mp henqpair

theorem C1_witness :
    List.Perm
      ((processBlockRangeWithBatching chEx [cfgEx] 3 (fun _ => true) 1 1 10).map
        eventKeyL)
      ((getAllContractEventsUnsorted chEx [cfgEx] 3 1 10).map scanKey)
    ∧ (processBlockRangeWithBatching chEx [cfgEx] 3 (fun _ => true) 1 1 10).Pairwise
        (fun x y => x.blockNumber < y.blockNumber
          ∨ (x.blockNumber = y.blockNumber ∧ x.data.logIndex ≤ y.data.logIndex))
    ∧ getAllContractEventsUnsorted chEx [cfgEx] 3 1 10
        = ([cfgEx].map (fun c =>
            ((getEventNamesFromConfig c).map (queryContractEvent chEx c 1 10)).flatten)).flatten :=
  C1_tick_enqueues_upstream_amended chEx [cfgEx] 3 1 1 10 (fun _ => true)
    (by norm_num) (fun _ => rfl) (by decide)

/-- C1 (counterexample): a tick with the listener running throughout,
over the window `[1, 10]`, in which upstream returns the two logs
`(5, 1, "0xt1")` and `(2, 0, "0xt2")` but the receipt of `"0xt1"` is
missing: only the `"0xt2"` event is enqueued — the enqueued set is a
proper subset of the upstream logs — while the cursor still advances
to 10.  This refutes the original claim that the enqueued set always
equals the upstream log set for the range. -/
theorem C1_counterexample :
    (processBlockRangeWithBatching chExMissing [cfgEx] 3 (fun _ => true) 1 1 10).map
        eventKeyL
      = [(2, 0, "0xt2")]
    ∧ (getAllContractEventsUnsorted chExMissing [cfgEx] 3 1 10).map scanKey
        = [(5, 1, "0xt1"), (2, 0, "0xt2")]
    ∧ (scanForNewBlocks chExMissing [cfgEx] 100 3 (fun _ => true) 1 0).1 = 10 :=
  ⟨rfl, rfl, rfl⟩

/-- C2 (amended): when new blocks exist, `scanForNewBlocks` sets the
cursor to `endBlock = min(latest, from + blocksPerScan - 1)`
unconditionally after the range call returns — whether or not the
drain loop enqueued anything; and once the loop observes a cleared
running flag, no further events of that tick are enqueued.  The
original claim's guard — cursor advanced only after every event of the
range is enqueued — does not hold (see the counterexample). -/
theorem C2_cursor_amended (ch : Chain) (configs : List ContractConfig)
    (bps batchSize chainId lpb : ℕ) (runningAt : ℕ → Bool) :
    (scanForNewBlocks ch configs bps batchSize runningAt chainId lpb).1
        = (if ch.latestBlock ≤ lpb then lpb
           else min ch.latestBlock (lpb + 1 + bps - 1))
    ∧ (∀ (i : ℕ) (l : List ScanEvent), runningAt i = false →
        processEventsLoop ch chainId runningAt i l = []) := by
  refine ⟨?_, fun i l h => processEventsLoop_stopped ch chainId runningAt i l h⟩
  unfold scanForNewBlocks
  split <;> rfl

theorem C2_witness :
    (scanForNewBlocks chEx [cfgEx] 100 3 (fun _ => false) 1 0).1
        = (if chEx.latestBlock ≤ 0 then 0 else min chEx.latestBlock (0 + 1 + 100 - 1))
    ∧ processEventsLoop chEx 1 (fun _ => false) 0
        (getAllContractEventsInRange chEx [cfgEx] 3 1 10) = [] :=
  ⟨(C2_cursor_amended chEx [cfgEx] 100 3 1 0 (fun _ => false)).1,
   (C2_cursor_amended chEx [cfgEx] 100 3 1 0 (fun _ => false)).2 0
     (getAllContractEventsInRange chEx [cfgEx] 3 1 10) rfl⟩

/-- C2 (counterexample): with the running flag cleared before the first
loop iteration (a `stop()` observed mid-tick), upstream returns logs at
blocks 5 and 2 of the window `[1, 10]`, nothing is enqueued, yet the
cursor is advanced to 10 — past both blocks whose events were never
enqueued.  This refutes "the cursor is set to `to` only after every
event of the range has been enqueued" and "it is never advanced past a
block whose events have not been enqueued". -/
theorem C2_counterexample :
    (scanForNewBlocks chEx [cfgEx] 100 3 (fun _ => false) 1 0).1 = 10
    ∧ (scanForNewBlocks chEx [cfgEx] 100 3 (fun _ => false) 1 0).2 = []
    ∧ (getAllContractEventsUnsorted chEx [cfgEx] 3 1 10).map scanKey
        = [(5, 1, "0xt1"), (2, 0, "0xt2")] :=
  ⟨rfl, rfl, rfl⟩

end Claims
